import Mathlib

/-!
# Ontime viewer template: the display client `app-ws.js`

A shallow embedding of `src/app-ws.js` and a verification of its specification.

The script receives typed messages over a web socket and writes their fields into
the page.  The embedding follows the script function by function and keeps its names:
`leftPad`, `formatTimer`, `clearIDs`, `updateDOM`, the message handler `onmessage` and
the reconnection logic of `connectSocket`.

## Modelling conventions

* **Numbers.**  A JSON number is an integer (`JVal.num n`).  The script computes in
  binary64, and `formatTimer` is embedded twice.  `formatTimerDouble` follows the
  script operation by operation on binary64 numbers (`Dbl`): the comparisons,
  `Math.abs`, `%`, `/`, `Math.floor` and `Number.prototype.toString`, each rounded as
  the engine rounds it.  `formatTimer` computes on exact integers: `/` is taken in `ℚ`
  and `Math.floor` is `Int.floor`.  The two agree on every integer of magnitude below
  `2 ^ 53` (`formatTimerDouble_eq_formatTimer`) and differ beyond it, where a
  quotient can round up to the next integer and a large field is printed in exponent
  notation.  The functions that write the page use the exact one, so what is proved
  of them describes the script for numbers of magnitude below `2 ^ 53` (as
  milliseconds, some 285 000 years).  The two percentages of the progress bar are not
  integers; they are computed in binary64 (`roundScaled`) and rendered by the shortest
  round-trip algorithm of `Number.prototype.toString`.
* **Strings.**  A string is a Lean `String`; `includes`, `padStart`, the selector
  `[id^=...]` and the regular expression `/\d{2}:\d{2}:\d{2}/` are list programs over
  its characters.
* **Page.**  The page is the list of its identified display targets in document
  order, each a leaf with a text, a checked flag and its custom properties, together
  with the custom properties of the document element.  The text of a target is the
  string last assigned to `innerText`; a custom property holds the string last passed
  to `setProperty` (the style engine's own parsing of the value is not modelled).
* **Exceptions.**  Reading a property of `null` or `undefined` and `Object.entries` of
  them throw; a handler that throws keeps the writes it made before the throw:
  `Outcome.threw` carries the page at that point.  Conversion to a string never throws
  (an object is taken to inherit `toString`).
* **Environment.**  `new Date()` and the conversion of strings to numbers are
  supplied by the host (`Host`); every theorem holds for all hosts.
-/

namespace OntimeViewer

/-! ## Host string operations -/

/-- Whether `needle` occurs in `hay` as a block of consecutive characters. -/
def occursIn (needle : List Char) : List Char → Bool
  | [] => needle.isPrefixOf []
  | c :: cs => needle.isPrefixOf (c :: cs) || occursIn needle cs

/-- The method `String.prototype.includes`. -/
def includes (s searchString : String) : Bool :=
  occursIn searchString.data s.data

/-- The attribute selector `[id^='pre']`: the identifier starts with `pre`; an empty
`pre` selects nothing. -/
def idStartsWith (id pre : String) : Bool :=
  pre.data != [] && pre.data.isPrefixOf id.data

/-- The method `String.prototype.padStart` with a one-character filler. -/
def padStart (s : String) (targetLength : Nat) (padChar : Char) : String :=
  String.mk (List.replicate (targetLength - s.length) padChar) ++ s

/-- The regular expression `\d{2}:\d{2}:\d{2}` matched at the head of the input. -/
def timePatternAt : List Char → Bool
  | d1 :: d2 :: c1 :: d3 :: d4 :: c2 :: d5 :: d6 :: _ =>
    d1.isDigit && d2.isDigit && c1 == ':' && d3.isDigit && d4.isDigit && c2 == ':' &&
      d5.isDigit && d6.isDigit
  | _ => false

/-- The test `/\d{2}:\d{2}:\d{2}/.test(s)` on the characters of `s`: the pattern is
not anchored, so it is tried at every position. -/
def timePatternIn : List Char → Bool
  | [] => false
  | c :: cs => timePatternAt (c :: cs) || timePatternIn cs

/-- The test `/\d{2}:\d{2}:\d{2}/.test(s)`. -/
def hasTimePattern (s : String) : Bool :=
  timePatternIn s.data

/-! ## Formatter -/

/-- Decimal rendering of an integer in plain digits: what `Number.prototype.toString`,
`JSON.stringify` and string concatenation produce for an integer of magnitude below
`2 ^ 53` (`toString_ofInt`).  From `1e21` on the engine prints exponent notation
(`Dbl.toString`), which this rendering does not. -/
def numberToString : Int → String
  | Int.ofNat m => m.repr
  | Int.negSucc m => "-" ++ (m + 1).repr

/-- Milliseconds in a second. -/
def mts : Int := 1000

/-- Milliseconds in a minute. -/
def mtm : Int := 1000 * 60

/-- Milliseconds in an hour. -/
def mth : Int := 1000 * 60 * 60

/-- The helper `leftPad` in exact arithmetic:
`Math.floor(number).toString().padStart(2, '0')`. -/
def leftPad (number : ℚ) : String :=
  padStart (numberToString ⌊number⌋) 2 '0'

/-- The function `formatTimer` in exact integer arithmetic: a number between -1000 and
1000 is left as is, everything else is converted from milliseconds to `HH:MM:SS`.
On every integer of magnitude below `2 ^ 53` it is the binary64 function
`formatTimerDouble` (`formatTimerDouble_eq_formatTimer`). -/
def formatTimer (number : Int) : String :=
  let millis : Int := |number|
  let isNegative : Bool := decide (number < 0)
  if number ≤ 1000 ∧ number ≥ -1000 then numberToString number
  else
    (if isNegative then "-" else "") ++ leftPad ((millis : ℚ) / (mth : ℚ)) ++ ":" ++
      leftPad (((millis.tmod mth : Int) : ℚ) / (mtm : ℚ)) ++ ":" ++
      leftPad (((millis.tmod mtm : Int) : ℚ) / (mts : ℚ))

/-- Reference padding, as the specification words it: the decimal rendering
left-padded with `0` to two characters at least. -/
def specPad (n : Nat) : String :=
  if n < 10 then "0" ++ n.repr else n.repr

/-- Reference definition of `formatTimer`, as the specification words it: the plain
decimal rendering inside `[-1000, 1000]`, otherwise the sign and three fields
obtained by truncating integer division of the absolute value. -/
def formatTimerSpec (ms : Int) : String :=
  if -1000 ≤ ms ∧ ms ≤ 1000 then numberToString ms
  else
    (if ms < 0 then "-" else "") ++ specPad (ms.natAbs / 3600000) ++ ":" ++
      specPad (ms.natAbs % 3600000 / 60000) ++ ":" ++ specPad (ms.natAbs % 60000 / 1000)

/-! ## Binary64 arithmetic -/

/-- A binary64 value: not-a-number, an infinity, or the finite value
`(-1) ^ neg * m * 2 ^ e`.  Zero is `fin neg 0 0`; a non-zero finite value has
`2 ^ 52 ≤ m < 2 ^ 53`, or `e = -1074` when subnormal. -/
inductive Dbl where
  | nan
  | inf (neg : Bool)
  | fin (neg : Bool) (m : Nat) (e : Int)
deriving DecidableEq, Repr

/-- Numerator and denominator of `num / den * 2 ^ s` as natural numbers. -/
def scaleFrac (num den : Nat) (s : Int) : Nat × Nat :=
  if 0 ≤ s then (num * 2 ^ s.toNat, den) else (num, den * 2 ^ (-s).toNat)

/-- The number of binary digits of a positive natural number. -/
def bitLength (n : Nat) : Nat :=
  (Nat.toDigits 2 n).length

/-- Rounding to binary64, to nearest with ties to even: the value nearest to
`num / den * 2 ^ e` (`den` positive), with sign `neg`. -/
def roundScaled (neg : Bool) (num den : Nat) (e : Int) : Dbl :=
  if num = 0 then Dbl.fin neg 0 0
  else
    let k : Int := (bitLength num : Int) - (bitLength den : Int) + e
    let t0 : Int := k - 52
    let f0 := scaleFrac num den (e - t0)
    let t1 : Int := if f0.1 / f0.2 < 2 ^ 52 then t0 - 1 else t0
    let t : Int := max t1 (-1074)
    let f := scaleFrac num den (e - t)
    let q := f.1 / f.2
    let r := f.1 % f.2
    let m := if f.2 < 2 * r ∨ (2 * r = f.2 ∧ q % 2 = 1) then q + 1 else q
    if m = 0 then Dbl.fin neg 0 0
    else if m = 2 ^ 53 then (if 971 < t + 1 then Dbl.inf neg else Dbl.fin neg (2 ^ 52) (t + 1))
    else if 971 < t then Dbl.inf neg
    else Dbl.fin neg m t

/-- The number value of an integer. -/
def Dbl.ofInt (n : Int) : Dbl :=
  roundScaled (decide (n < 0)) n.natAbs 1 0

/-- The operator `/` on numbers. -/
def Dbl.div : Dbl → Dbl → Dbl
  | Dbl.nan, _ => Dbl.nan
  | _, Dbl.nan => Dbl.nan
  | Dbl.inf _, Dbl.inf _ => Dbl.nan
  | Dbl.inf s, Dbl.fin t _ _ => Dbl.inf (xor s t)
  | Dbl.fin s _ _, Dbl.inf t => Dbl.fin (xor s t) 0 0
  | Dbl.fin s m e, Dbl.fin t n f =>
    if n = 0 then (if m = 0 then Dbl.nan else Dbl.inf (xor s t))
    else roundScaled (xor s t) m n (e - f)

/-- The operator `*` on numbers. -/
def Dbl.mul : Dbl → Dbl → Dbl
  | Dbl.nan, _ => Dbl.nan
  | _, Dbl.nan => Dbl.nan
  | Dbl.inf s, Dbl.inf t => Dbl.inf (xor s t)
  | Dbl.inf s, Dbl.fin t n _ => if n = 0 then Dbl.nan else Dbl.inf (xor s t)
  | Dbl.fin s m _, Dbl.inf t => if m = 0 then Dbl.nan else Dbl.inf (xor s t)
  | Dbl.fin s m e, Dbl.fin t n f => roundScaled (xor s t) (m * n) 1 (e + f)

/-- Numerator and denominator of `num / den * 10 ^ s` as natural numbers. -/
def scaleFrac10 (num den : Nat) (s : Int) : Nat × Nat :=
  if 0 ≤ s then (num * 10 ^ s.toNat, den) else (num, den * 10 ^ (-s).toNat)

/-- For a positive value `num / den` below one, the least `j ≥ 1` with
`1 ≤ num / den * 10 ^ j`, searched from `j` upwards. -/
def leadingZeros (num den : Nat) : Nat → Nat → Nat
  | 0, j => j
  | fuel + 1, j => if den ≤ num * 10 ^ j then j else leadingZeros num den fuel (j + 1)

/-- The decimal exponent `n` of a positive value: `10 ^ (n - 1) ≤ num / den < 10 ^ n`. -/
def decimalExponent (num den : Nat) : Int :=
  if den ≤ num then ((Nat.toDigits 10 (num / den)).length : Int)
  else 1 - (leadingZeros num den 400 1 : Int)

/-- The `k`-digit decimal for the positive double `m * 2 ^ e` with decimal exponent
`n`, when one exists: digits `s` and exponent `n'` with the double nearest to
`s * 10 ^ (n' - k)` equal to the given one; of two candidates the closer one, the even
one on a tie. -/
def shortestAt (m : Nat) (e n : Int) (k : Nat) : Option (Nat × Int) :=
  let v := scaleFrac m 1 e
  let f := scaleFrac10 v.1 v.2 ((k : Int) - n)
  let lo := f.1 / f.2
  let r := f.1 % f.2
  let hi := lo + 1
  let ok (c : Nat) : Bool :=
    let g := scaleFrac10 c 1 (n - (k : Int))
    decide (roundScaled false g.1 g.2 0 = Dbl.fin false m e)
  let pick (c : Nat) : Option (Nat × Int) :=
    if c = 10 ^ k then some (1, n + 1) else some (c, n)
  if r = 0 then pick lo
  else if ok lo && ok hi then
    (if 2 * r < f.2 ∨ (2 * r = f.2 ∧ lo % 2 = 0) then pick lo else pick hi)
  else if ok lo then pick lo
  else if ok hi then pick hi
  else none

/-- The shortest decimal that reads back as the positive double `m * 2 ^ e`:
its digits `s` and the exponent `n` with value `0.s * 10 ^ n`. -/
def shortestDecimal (m : Nat) (e : Int) : Nat × Int :=
  let v := scaleFrac m 1 e
  let n := decimalExponent v.1 v.2
  match (List.range 17).findSome? (fun i => shortestAt m e n (i + 1)) with
  | some sn => sn
  | none => (0, n)

/-- The text of a positive finite number given its shortest digits `s` and decimal
exponent `n`, by the layout rules of `Number.prototype.toString`. -/
def layoutDecimal (s : Nat) (n : Int) : String :=
  let ds := Nat.toDigits 10 s
  let k : Int := ds.length
  if k ≤ n ∧ n ≤ 21 then String.mk (ds ++ List.replicate (n - k).toNat '0')
  else if 0 < n ∧ n ≤ 21 then String.mk (ds.take n.toNat ++ '.' :: ds.drop n.toNat)
  else if -6 < n ∧ n ≤ 0 then String.mk ('0' :: '.' :: List.replicate (-n).toNat '0' ++ ds)
  else
    let x := n - 1
    let sign := if x < 0 then "-" else "+"
    let mant := if ds.length = 1 then String.mk ds else String.mk (ds.take 1 ++ '.' :: ds.drop 1)
    mant ++ "e" ++ sign ++ x.natAbs.repr

/-- The method `Number.prototype.toString` (radix ten). -/
def Dbl.toString : Dbl → String
  | Dbl.nan => "NaN"
  | Dbl.inf false => "Infinity"
  | Dbl.inf true => "-Infinity"
  | Dbl.fin neg m e =>
    if m = 0 then "0"
    else
      let sn := shortestDecimal m e
      (if neg then "-" else "") ++ layoutDecimal sn.1 sn.2

/-! ## The formatter in binary64 -/

/-- The function `Math.abs`. -/
def Dbl.abs : Dbl → Dbl
  | Dbl.nan => Dbl.nan
  | Dbl.inf _ => Dbl.inf false
  | Dbl.fin _ m e => Dbl.fin false m e

/-- The exact value of a finite number as a fraction: signed numerator and positive
denominator. -/
def Dbl.toFrac (neg : Bool) (m : Nat) (e : Int) : Int × Nat :=
  let f := scaleFrac m 1 e
  (if neg then -(f.1 : Int) else (f.1 : Int), f.2)

/-- The comparison `a <= b` on numbers: false when either is not-a-number. -/
def Dbl.le : Dbl → Dbl → Bool
  | Dbl.nan, _ => false
  | _, Dbl.nan => false
  | Dbl.inf s, Dbl.inf t => s || !t
  | Dbl.inf s, Dbl.fin _ _ _ => s
  | Dbl.fin _ _ _, Dbl.inf t => !t
  | Dbl.fin s m e, Dbl.fin t n f =>
    let a := Dbl.toFrac s m e
    let b := Dbl.toFrac t n f
    decide (a.1 * (b.2 : Int) ≤ b.1 * (a.2 : Int))

/-- The comparison `a < b` on numbers: false when either is not-a-number. -/
def Dbl.lt : Dbl → Dbl → Bool
  | Dbl.nan, _ => false
  | _, Dbl.nan => false
  | Dbl.inf s, Dbl.inf t => s && !t
  | Dbl.inf s, Dbl.fin _ _ _ => s
  | Dbl.fin _ _ _, Dbl.inf t => !t
  | Dbl.fin s m e, Dbl.fin t n f =>
    let a := Dbl.toFrac s m e
    let b := Dbl.toFrac t n f
    decide (a.1 * (b.2 : Int) < b.1 * (a.2 : Int))

/-- The operator `%` on numbers: the remainder of the truncated division, exact, with
the sign of the dividend. -/
def Dbl.mod : Dbl → Dbl → Dbl
  | Dbl.nan, _ => Dbl.nan
  | _, Dbl.nan => Dbl.nan
  | Dbl.inf _, _ => Dbl.nan
  | Dbl.fin s m e, Dbl.inf _ => Dbl.fin s m e
  | Dbl.fin s m e, Dbl.fin _ n f =>
    if n = 0 then Dbl.nan
    else
      let emin := min e f
      let a := m * 2 ^ (e - emin).toNat
      let b := n * 2 ^ (f - emin).toNat
      roundScaled s (a % b) 1 emin

/-- The function `Math.floor`. -/
def Dbl.floor : Dbl → Dbl
  | Dbl.nan => Dbl.nan
  | Dbl.inf s => Dbl.inf s
  | Dbl.fin s m e =>
    if 0 ≤ e then Dbl.fin s m e
    else
      let q := m / 2 ^ (-e).toNat
      let r := m % 2 ^ (-e).toNat
      roundScaled s (if s = true ∧ r ≠ 0 then q + 1 else q) 1 0

/-- The helper `leftPad` on a binary64 number:
`Math.floor(number).toString().padStart(2, '0')`. -/
def leftPadDouble (number : Dbl) : String :=
  padStart (Dbl.floor number).toString 2 '0'

/-- The function `formatTimer` as the script computes it, on a binary64 number, every
operation rounded as the engine rounds it.  Inside `[-1000, 1000]` the number is
finite, and `JSON.stringify` of a finite number is its `toString`. -/
def formatTimerDouble (number : Dbl) : String :=
  let millis := Dbl.abs number
  let isNegative := Dbl.lt number (Dbl.ofInt 0)
  if (Dbl.le number (Dbl.ofInt 1000) && Dbl.le (Dbl.ofInt (-1000)) number) = true then
    number.toString
  else
    (if isNegative then "-" else "") ++ leftPadDouble (millis.div (Dbl.ofInt mth)) ++ ":" ++
      leftPadDouble ((millis.mod (Dbl.ofInt mth)).div (Dbl.ofInt mtm)) ++ ":" ++
      leftPadDouble ((millis.mod (Dbl.ofInt mtm)).div (Dbl.ofInt mts))

/-! ## Values carried by a message -/

/-- A value obtained from `JSON.parse` (numbers are integers), or `undefined`, which
is what reading an absent property gives.  An object is the list of its own
properties in the order `Object.entries` enumerates them. -/
inductive JVal where
  | undefined
  | null
  | bool (b : Bool)
  | num (n : Int)
  | str (s : String)
  | arr (xs : List JVal)
  | obj (kvs : List (String × JVal))

/-- The host environment: the text of the successive `new Date()` values and the
conversion of a string to a number. -/
structure Host where
  now : Nat → String
  stringToNumber : String → Dbl

/-- The abstract operation `ToBoolean`: what `!v` and `if (v)` test. -/
def toBoolean : JVal → Bool
  | JVal.undefined => false
  | JVal.null => false
  | JVal.bool b => b
  | JVal.num n => n != 0
  | JVal.str s => s != ""
  | JVal.arr _ => true
  | JVal.obj _ => true

/-- Reading the property `v.k`, for the property names the handler reads (none of
them is an index, `length` or a prototype member): `none` is the `TypeError` of
reading a property of `null` or `undefined`. -/
def getProp (v : JVal) (k : String) : Option JVal :=
  match v with
  | JVal.undefined => none
  | JVal.null => none
  | JVal.obj kvs => some ((kvs.lookup k).getD JVal.undefined)
  | _ => some JVal.undefined

/-- The pairs of a list with their positions written in decimal, from `i` on. -/
def indexed {α : Type} : Nat → List α → List (String × α)
  | _, [] => []
  | i, x :: xs => (i.repr, x) :: indexed (i + 1) xs

/-- The function `Object.entries`: `none` is the `TypeError` on `null` and `undefined`. -/
def entries : JVal → Option (List (String × JVal))
  | JVal.undefined => none
  | JVal.null => none
  | JVal.bool _ => some []
  | JVal.num _ => some []
  | JVal.str s => some (indexed 0 (s.data.map (fun c => JVal.str (String.singleton c))))
  | JVal.arr xs => some (indexed 0 xs)
  | JVal.obj kvs => some kvs

/-- The entries of `v` after the assignment `v.k = x` (sloppy mode): an object gets
the property replaced in place or appended, an array gets it after its indices, a
primitive ignores the assignment; `none` is the `TypeError` on `null` and
`undefined`. -/
def entriesAfterAssign (v : JVal) (k : String) (x : JVal) : Option (List (String × JVal)) :=
  match v with
  | JVal.obj kvs =>
    if kvs.any (fun kv => kv.1 == k) then
      some (kvs.map (fun kv => if kv.1 == k then (k, x) else kv))
    else some (kvs ++ [(k, x)])
  | JVal.arr xs => some (indexed 0 xs ++ [(k, x)])
  | JVal.undefined => none
  | JVal.null => none
  | w => entries w

mutual
/-- The abstract operation `ToString`.  An array is joined as `Array.prototype.join`
does; an object inherits `Object.prototype.toString` (an object whose own property
`toString` hides the inherited method is outside the model). -/
def toStringJS : JVal → String
  | JVal.undefined => "undefined"
  | JVal.null => "null"
  | JVal.bool b => if b then "true" else "false"
  | JVal.num n => numberToString n
  | JVal.str s => s
  | JVal.arr xs => String.intercalate "," (joinParts xs)
  | JVal.obj _ => "[object Object]"
/-- The pieces `Array.prototype.join` concatenates: empty for `null` and `undefined`. -/
def joinParts : List JVal → List String
  | [] => []
  | JVal.undefined :: xs => "" :: joinParts xs
  | JVal.null :: xs => "" :: joinParts xs
  | x :: xs => toStringJS x :: joinParts xs
end

/-- Conversion of a value assigned to `innerText` or passed to `setProperty`: both
take `null` to the empty string and otherwise apply `ToString`. -/
def domString : JVal → String
  | JVal.null => ""
  | v => toStringJS v

/-- The abstract operation `ToNumber`. -/
def toNumber (host : Host) : JVal → Dbl
  | JVal.undefined => Dbl.nan
  | JVal.null => Dbl.fin false 0 0
  | JVal.bool b => Dbl.ofInt (if b then 1 else 0)
  | JVal.num n => Dbl.ofInt n
  | JVal.str s => host.stringToNumber s
  | v => host.stringToNumber (toStringJS v)

/-- The comparison `v == s` for a string `s` that is not a numeric literal (as
`"play"`): a string is compared as such, an array or object through `ToString`, and
every other value differs. -/
def looseEqString (v : JVal) (s : String) : Bool :=
  match v with
  | JVal.str t => t == s
  | JVal.arr xs => toStringJS (JVal.arr xs) == s
  | JVal.obj kvs => toStringJS (JVal.obj kvs) == s
  | _ => false

/-- The expression `(x / y) * 100 + '%'`. -/
def percent (host : Host) (x y : JVal) : String :=
  (((toNumber host x).div (toNumber host y)).mul (Dbl.ofInt 100)).toString ++ "%"

/-- One character inside a JSON string literal. -/
def quoteChar (c : Char) : List Char :=
  if c = '\"' then ['\\', '\"']
  else if c = '\\' then ['\\', '\\']
  else if c.toNat = 8 then ['\\', 'b']
  else if c.toNat = 9 then ['\\', 't']
  else if c.toNat = 10 then ['\\', 'n']
  else if c.toNat = 12 then ['\\', 'f']
  else if c.toNat = 13 then ['\\', 'r']
  else if c.toNat < 32 then
    ['\\', 'u', '0', '0', Nat.digitChar (c.toNat / 16), Nat.digitChar (c.toNat % 16)]
  else [c]

/-- A string as a JSON string literal. -/
def quoteJSON (s : String) : String :=
  String.mk ('\"' :: (s.data.flatMap quoteChar ++ ['\"']))

mutual
/-- The text `JSON.stringify(v, null, 2)` produces for `v` nested at indentation
`indent`; `none` is the result `undefined`. -/
def jsonProperty (indent : String) : JVal → Option String
  | JVal.undefined => none
  | JVal.null => some "null"
  | JVal.bool b => some (if b then "true" else "false")
  | JVal.num n => some (numberToString n)
  | JVal.str s => some (quoteJSON s)
  | JVal.arr xs =>
    match jsonElements (indent ++ "  ") xs with
    | [] => some "[]"
    | parts =>
      some ("[\n" ++ indent ++ "  " ++ String.intercalate (",\n" ++ indent ++ "  ") parts ++
        "\n" ++ indent ++ "]")
  | JVal.obj kvs =>
    match jsonMembers (indent ++ "  ") kvs with
    | [] => some "\x7b\x7d"
    | parts =>
      some ("\x7b\n" ++ indent ++ "  " ++ String.intercalate (",\n" ++ indent ++ "  ") parts ++
        "\n" ++ indent ++ "\x7d")
/-- The elements of an array, `undefined` written as `null`. -/
def jsonElements (indent : String) : List JVal → List String
  | [] => []
  | x :: xs => (jsonProperty indent x).getD "null" :: jsonElements indent xs
/-- The members of an object, those with value `undefined` left out. -/
def jsonMembers (indent : String) : List (String × JVal) → List String
  | [] => []
  | (k, x) :: kvs =>
    match jsonProperty indent x with
    | some t => (quoteJSON k ++ ": " ++ t) :: jsonMembers indent kvs
    | none => jsonMembers indent kvs
end

/-- The call `JSON.stringify(v, null, 2)`; `none` is the result `undefined`. -/
def jsonStringify (v : JVal) : Option String :=
  jsonProperty "" v

/-! ## The page -/

/-- A display target of the page: an element that carries an identifier. -/
structure Element where
  id : String
  isCheckbox : Bool
  innerText : String
  checked : Bool
  style : List (String × String)
deriving DecidableEq, Repr

/-- The page: its display targets in document order, the custom properties set on
`document.documentElement.style`, and the number of `new Date()` values read so far. -/
structure Dom where
  elements : List Element
  rootStyle : List (String × String)
  dateReads : Nat
deriving DecidableEq, Repr

/-- The result of running a handler: it returned, or it threw. -/
inductive Outcome where
  | done (d : Dom)
  | threw (d : Dom)
deriving DecidableEq, Repr

/-- Sequencing of two steps of a handler: a throw ends it. -/
def Outcome.andThen (o : Outcome) (f : Dom → Outcome) : Outcome :=
  match o with
  | Outcome.done d => f d
  | Outcome.threw d => Outcome.threw d

/-- The page an outcome leaves. -/
def Outcome.dom : Outcome → Dom
  | Outcome.done d => d
  | Outcome.threw d => d

/-- The method `style.setProperty(name, value)` for a custom property: the empty
value removes the property. -/
def setProperty (style : List (String × String)) (name value : String) :
    List (String × String) :=
  if value = "" then style.filter (fun p => p.1 != name)
  else if style.any (fun p => p.1 == name) then
    style.map (fun p => if p.1 == name then (name, value) else p)
  else style ++ [(name, value)]

/-- The value of a custom property, when set. -/
def getProperty (style : List (String × String)) (name : String) : Option String :=
  style.lookup name

/-- The lookup `document.getElementById(id)`: the first element with that identifier. -/
def getElementById (d : Dom) (id : String) : Option Element :=
  if id = "" then none else d.elements.find? (fun el => el.id == id)

/-- The elements with `f` applied to the first one with identifier `id`. -/
def modifyFirst (id : String) (f : Element → Element) : List Element → List Element
  | [] => []
  | el :: els => if el.id == id then f el :: els else el :: modifyFirst id f els

/-- A write to the element `document.getElementById(id)`. -/
def Dom.modify (d : Dom) (id : String) (f : Element → Element) : Dom :=
  { d with elements := modifyFirst id f d.elements }

/-- The assignment `document.getElementById(id).innerText = text`. -/
def Dom.setText (d : Dom) (id text : String) : Dom :=
  d.modify id (fun el => { el with innerText := text })

/-- The call `document.documentElement.style.setProperty(name, value)`. -/
def Dom.setRootProperty (d : Dom) (name value : String) : Dom :=
  { d with rootStyle := setProperty d.rootStyle name value }

/-! ## Clearer -/

/-- The function `clearIDs`: every element whose identifier starts with `clearID`
shows the placeholder if its text holds a timer and nothing otherwise, every such
checkbox is unchecked, and the colour of `clearID-colour` becomes transparent. -/
def clearIDs (clearID : String) (d : Dom) : Dom :=
  let foundColour := getElementById d (clearID ++ "-colour")
  let cleared := d.elements.map (fun element =>
    if idStartsWith element.id clearID then
      { element with innerText := if hasTimePattern element.innerText then "--:--:--" else "" }
    else element)
  let unchecked := cleared.map (fun element =>
    if element.isCheckbox && idStartsWith element.id clearID then
      { element with checked := false }
    else element)
  let coloured :=
    match foundColour with
    | some _ =>
      modifyFirst (clearID ++ "-colour")
        (fun el =>
          { el with style := setProperty el.style ("--" ++ clearID ++ "-colour") "transparent" })
        unchecked
    | none => unchecked
  { d with elements := coloured }

/-! ## DOM projector -/

/-- The substrings of a field name that mark a number as a time. -/
def timeKeys : List String :=
  ["clock", "time", "duration", "delay", "gap", "startedAt"]

/-- The stamp every successful update leaves: the text of the `timestamp` element
becomes the current date. -/
def stampTimestamp (host : Host) (d : Dom) : Dom :=
  match getElementById d "timestamp" with
  | none => d
  | some _ =>
    { d.setText "timestamp" (host.now d.dateReads) with dateReads := d.dateReads + 1 }

/-- The body of `updateDOM` on the element `el` it found: the change the payload
makes, chosen by the type of the payload and the name of the field. -/
def writeElement (field : String) (payload : JVal) (el : Element) : Element :=
  match payload with
  | JVal.bool b => { el with checked := b }
  | JVal.num n =>
    let numberValue := timeKeys.foldl
      (fun value keyValue => if includes field keyValue then formatTimer n else value)
      (numberToString n)
    { el with innerText := numberValue }
  | _ =>
    if includes field "colour" then
      { el with style := setProperty el.style ("--" ++ field) (domString payload) }
    else if includes field "custom" then
      { el with innerText := (jsonStringify payload).getD "undefined" }
    else { el with innerText := domString payload }

/-- The function `updateDOM`: writes `payload` to the element named `field`, if there
is one, and stamps the `timestamp` element. -/
def updateDOM (host : Host) (field : String) (payload : JVal) (d : Dom) : Dom :=
  match getElementById d field with
  | none => d
  | some _ => stampTimestamp host (d.modify field (writeElement field payload))

/-- The loop `Object.entries(o).forEach(([key, value]) => updateDOM(pre + key, value))`. -/
def projectEntries (host : Host) (pre : String) (es : List (String × JVal)) (d : Dom) : Dom :=
  es.foldl (fun d1 kv => updateDOM host (pre ++ kv.1) kv.2 d1) d

/-- Projects the entries of `v` under the prefix `pre`; throws on `null` and `undefined`. -/
def projectObject (host : Host) (pre : String) (v : JVal) (d : Dom) : Outcome :=
  match entries v with
  | none => Outcome.threw d
  | some es => Outcome.done (projectEntries host pre es d)

/-- Reference projection, as the specification words the contract of `updateDOM`:
without an element named `fieldKey` nothing changes; otherwise the first matching
rule is applied to that element, and the update is stamped. -/
def updateDOMSpec (host : Host) (fieldKey : String) (value : JVal) (d : Dom) : Dom :=
  if (getElementById d fieldKey).isNone then d
  else
    match value with
    | JVal.bool b =>
      stampTimestamp host (d.modify fieldKey (fun el => { el with checked := b }))
    | JVal.num n =>
      if timeKeys.any (fun k => includes fieldKey k) then
        stampTimestamp host (d.setText fieldKey (formatTimer n))
      else stampTimestamp host (d.setText fieldKey (numberToString n))
    | v =>
      if includes fieldKey "colour" then
        stampTimestamp host (d.modify fieldKey (fun el =>
          { el with style := setProperty el.style ("--" ++ fieldKey) (domString v) }))
      else if includes fieldKey "custom" then
        stampTimestamp host (d.setText fieldKey ((jsonStringify v).getD "undefined"))
      else stampTimestamp host (d.setText fieldKey (domString v))

/-! ## Message dispatcher -/

/-- The property `v.k` of a value known not to be `null` or `undefined`. -/
def field (v : JVal) (k : String) : JVal :=
  (getProp v k).getD JVal.undefined

/-- The shape shared by most cases of the handler: a falsy payload clears the
category, any other payload is projected field by field under `category-`. -/
def clearOrProject (host : Host) (category : String) (payload : JVal) (d : Dom) : Outcome :=
  if !toBoolean payload then Outcome.done (clearIDs category d)
  else projectObject host (category ++ "-") payload d

/-- The two thresholds of the progress bar, computed from an event: the warning
share goes to `--barStart`, the danger share to `--barEnd`. -/
def progressBar (host : Host) (event : JVal) (d : Dom) : Dom :=
  let partDanger := percent host (field event "timeDanger") (field event "duration")
  let partWarning := percent host (field event "timeWarning") (field event "duration")
  (d.setRootProperty "--barStart" partWarning).setRootProperty "--barEnd" partDanger

/-- The timer elements that show the placeholder while the timer is stopped. -/
def stoppedTimerKeys : List String :=
  ["timer-addedTime", "timer-current", "timer-duration", "timer-elapsed",
    "timer-expectedFinish", "timer-finishedAt", "timer-startedAt"]

/-- The loop that writes the placeholder into each stopped-timer element present. -/
def forcePlaceholders (keys : List String) (d : Dom) : Dom :=
  keys.foldl (fun d1 value =>
    match getElementById d1 value with
    | some _ => d1.setText value "--:--:--"
    | none => d1) d

/-- The case `'ontime'`: a snapshot of the whole state. -/
def caseOntime (host : Host) (payload : JVal) (d : Dom) : Outcome :=
  match getProp payload "timer" with
  | none => Outcome.threw d
  | some timer =>
    match getProp timer "current" with
    | none => Outcome.threw d
    | some _ =>
      let eventNow := field payload "eventNow"
      if !toBoolean eventNow then Outcome.done d
      else
        let eventNext := field payload "eventNext"
        let publicEventNow := field payload "publicEventNow"
        let publicEventNext := field payload "publicEventNext"
        match getProp (field payload "currentBlock") "block" with
        | none => Outcome.threw d
        | some currentBlock =>
          match getProp (field payload "message") "timer" with
          | none => Outcome.threw d
          | some message =>
            let runtime := field payload "runtime"
            let auxtimer1 := field payload "auxtimer1"
            (projectObject host "eventNow-" eventNow d).andThen fun d1 =>
            (if toBoolean eventNext then projectObject host "eventNext-" eventNext d1
              else Outcome.done d1).andThen fun d2 =>
            (if toBoolean publicEventNow then
                projectObject host "publicEventNow-" publicEventNow d2
              else Outcome.done d2).andThen fun d3 =>
            (if toBoolean publicEventNext then
                projectObject host "publicEventNext-" publicEventNext d3
              else Outcome.done d3).andThen fun d4 =>
            (if toBoolean currentBlock then
                match entriesAfterAssign currentBlock "startedAt"
                    (field (field payload "currentBlock") "startedAt") with
                | some es => Outcome.done (projectEntries host "currentBlock-" es d4)
                | none => Outcome.threw d4
              else Outcome.done d4).andThen fun d5 =>
            let d6 := updateDOM host "onAir-onAir" (field payload "onAir") d5
            let d7 := updateDOM host "clock-clock" (field payload "clock") d6
            (projectObject host "message-" message d7).andThen fun d8 =>
            let d9 := updateDOM host "message-external"
              (field (field payload "message") "external") d8
            (projectObject host "runtime-" runtime d9).andThen fun d10 =>
            (projectObject host "auxtimer1-" auxtimer1 d10).andThen fun d11 =>
            Outcome.done (progressBar host eventNow d11)

/-- The case `'ontime-eventNow'`. -/
def caseEventNow (host : Host) (payload : JVal) (d : Dom) : Outcome :=
  if !toBoolean payload then Outcome.done (clearIDs "eventNow" d)
  else
    (projectObject host "eventNow-" payload d).andThen fun d1 =>
      Outcome.done (progressBar host payload d1)

/-- The case `'ontime-message'`. -/
def caseMessage (host : Host) (payload : JVal) (d : Dom) : Outcome :=
  if !toBoolean payload then Outcome.done (clearIDs "message" d)
  else
    (projectObject host "message-" (field payload "timer") d).andThen fun d1 =>
      Outcome.done (updateDOM host "message-external" (field payload "external") d1)

/-- The case `'ontime-timer'`. -/
def caseTimer (host : Host) (payload : JVal) (d : Dom) : Outcome :=
  match getProp payload "current" with
  | none => Outcome.threw d
  | some current =>
    if !toBoolean current then
      (projectObject host "timer-" payload d).andThen fun d1 =>
        Outcome.done ((((forcePlaceholders stoppedTimerKeys d1).setRootProperty
          "--barStart" "0%").setRootProperty "--barEnd" "0%").setRootProperty
          "--barProgress" "100%")
    else
      (projectObject host "timer-" payload d).andThen fun d1 =>
        if looseEqString (field payload "playback") "play" then
          Outcome.done (d1.setRootProperty "--barProgress"
            (percent host (field payload "elapsed") (field payload "duration")))
        else Outcome.done d1

/-- The case `'ontime-clock'`. -/
def caseClock (host : Host) (payload : JVal) (d : Dom) : Outcome :=
  if !toBoolean payload then Outcome.done (clearIDs "clock" d)
  else Outcome.done (updateDOM host "clock-clock" payload d)

/-- The case `'ontime-currentBlock'`. -/
def caseCurrentBlock (host : Host) (payload : JVal) (d : Dom) : Outcome :=
  match getProp payload "startedAt" with
  | none => Outcome.threw d
  | some startedAt =>
    if !toBoolean startedAt then Outcome.done (clearIDs "currentBlock" d)
    else
      match entriesAfterAssign (field payload "block") "startedAt" startedAt with
      | none => Outcome.threw d
      | some es => Outcome.done (projectEntries host "currentBlock-" es d)

/-- The handler `websocket.onmessage` applied to the parsed frame `data`. -/
def onmessage (host : Host) (data : JVal) (d : Dom) : Outcome :=
  match getProp data "type", getProp data "payload" with
  | some (JVal.str type), some payload =>
    if type = "ontime" then caseOntime host payload d
    else if type = "ontime-eventNow" then caseEventNow host payload d
    else if type = "ontime-eventNext" then clearOrProject host "eventNext" payload d
    else if type = "ontime-publicEventNow" then clearOrProject host "publicEventNow" payload d
    else if type = "ontime-publicEventNext" then
      clearOrProject host "publicEventNext" payload d
    else if type = "ontime-message" then caseMessage host payload d
    else if type = "ontime-timer" then caseTimer host payload d
    else if type = "ontime-auxtimer1" then clearOrProject host "auxtimer1" payload d
    else if type = "ontime-onAir" then Outcome.done (updateDOM host "onAir-onAir" payload d)
    else if type = "ontime-clock" then caseClock host payload d
    else if type = "ontime-runtime" then clearOrProject host "runtime" payload d
    else if type = "ontime-log" then clearOrProject host "log" payload d
    else if type = "ontime-currentBlock" then caseCurrentBlock host payload d
    else if type = "client" then clearOrProject host "client" payload d
    else Outcome.done d
  | some _, some _ => Outcome.done d
  | _, _ => Outcome.threw d

/-- The frame `{type, payload}`. -/
def message (type : String) (payload : JVal) : JVal :=
  JVal.obj [("type", JVal.str type), ("payload", payload)]

/-! ## Connection manager -/

/-- The ready state of a web socket. -/
inductive ReadyState where
  | CONNECTING
  | OPEN
  | CLOSING
  | CLOSED
deriving DecidableEq, Repr

/-- The state of the connection manager: the two module variables, the sockets
created so far with their ready states, and the timeouts the browser holds, each
with its handle and the socket its callback closes over. -/
structure Conn where
  reconnectTimeout : Option Nat
  reconnectAttempts : Nat
  sockets : List ReadyState
  timers : List (Nat × Nat)
  nextHandle : Nat
deriving DecidableEq, Repr

/-- What the event loop delivers to the connection manager. -/
inductive Event where
  | opened (socket : Nat)
  | closed (socket : Nat)
  | errored (socket : Nat)
  | timerFired (handle : Nat)
deriving DecidableEq, Repr

/-- The function `connectSocket`, as far as the connection state goes: a new socket
in the connecting state. -/
def connectSocket (c : Conn) : Conn :=
  { c with sockets := c.sockets ++ [ReadyState.CONNECTING] }

/-- The state after the script has loaded: it calls `connectSocket()` once. -/
def Conn.initial : Conn :=
  connectSocket
    { reconnectTimeout := none, reconnectAttempts := 0, sockets := [], timers := [],
      nextHandle := 1 }

/-- The call `clearTimeout(handle)`. -/
def clearTimeout (handle : Option Nat) (timers : List (Nat × Nat)) : List (Nat × Nat) :=
  match handle with
  | none => timers
  | some h => timers.filter (fun t => t.1 != h)

/-- The handler `websocket.onopen`. -/
def onopen (c : Conn) : Conn :=
  { c with timers := clearTimeout c.reconnectTimeout c.timers, reconnectAttempts := 0 }

/-- The handler `websocket.onclose` of socket `socket`: it schedules the reconnect
callback and stores its handle. -/
def onclose (socket : Nat) (c : Conn) : Conn :=
  { c with
    timers := c.timers ++ [(c.nextHandle, socket)]
    reconnectTimeout := some c.nextHandle
    nextHandle := c.nextHandle + 1 }

/-- The callback passed to `setTimeout` by the close handler of socket `socket`. -/
def reconnectCallback (socket : Nat) (c : Conn) : Conn :=
  if c.sockets.get? socket = some ReadyState.CLOSED then
    connectSocket { c with reconnectAttempts := c.reconnectAttempts + 1 }
  else c

/-- One turn of the event loop; `none` when the event cannot occur in the state: a
socket opens from the connecting state, closes once, and a timeout fires while the
browser holds it. -/
def step (c : Conn) : Event → Option Conn
  | Event.opened i =>
    if c.sockets.get? i = some ReadyState.CONNECTING then
      some (onopen { c with sockets := c.sockets.set i ReadyState.OPEN })
    else none
  | Event.closed i =>
    match c.sockets.get? i with
    | some s =>
      if s = ReadyState.CLOSED then none
      else some (onclose i { c with sockets := c.sockets.set i ReadyState.CLOSED })
    | none => none
  | Event.errored i => if i < c.sockets.length then some c else none
  | Event.timerFired h =>
    match c.timers.find? (fun t => t.1 == h) with
    | some t =>
      some (reconnectCallback t.2 { c with timers := c.timers.filter (fun u => u.1 != h) })
    | none => none

/-- A run of the event loop over a list of events. -/
def run : Conn → List Event → Option Conn
  | c, [] => some c
  | c, e :: es => (step c e).bind (fun c1 => run c1 es)

/-- A failed reconnect: the pending timeout fires and the socket it opens closes
without having opened. -/
def failedReconnect (c : Conn) : Option Conn :=
  match c.reconnectTimeout with
  | none => none
  | some h =>
    (step c (Event.timerFired h)).bind (fun c1 => step c1 (Event.closed (c1.sockets.length - 1)))

/-- The outcome of `n` failed reconnects in a row. -/
def failedReconnects : Nat → Conn → Option Conn
  | 0, c => some c
  | n + 1, c => (failedReconnect c).bind (failedReconnects n)

/-- Whether an event is the opening of a socket. -/
def Event.isOpened : Event → Bool
  | Event.opened _ => true
  | _ => false

/-- The states the connection manager can be in: those a run from the initial state
reaches. -/
def Reachable (c : Conn) : Prop :=
  ∃ es : List Event, run Conn.initial es = some c


/-- The invariant of the reachable connection states: every socket but the newest
is closed, and either the newest is not closed and no timeout is pending, or it is
closed and the one pending timeout is the one its close handler scheduled, whose
handle the variable holds. -/
def Conn.Inv (c : Conn) : Prop :=
  ∃ (older : List ReadyState) (newest : ReadyState),
    c.sockets = older ++ [newest] ∧ (∀ s ∈ older, s = ReadyState.CLOSED) ∧
      ((newest ≠ ReadyState.CLOSED ∧ c.timers = []) ∨
        (newest = ReadyState.CLOSED ∧
          ∃ h, c.timers = [(h, older.length)] ∧ c.reconnectTimeout = some h))

/-- A state that waits for its reconnect timeout: every socket is closed, and the
one pending timeout is the one the newest socket scheduled when it closed. -/
def Conn.Waiting (c : Conn) : Prop :=
  ∃ (older : List ReadyState) (h : Nat),
    c.sockets = older ++ [ReadyState.CLOSED] ∧ (∀ s ∈ older, s = ReadyState.CLOSED) ∧
      c.timers = [(h, older.length)] ∧ c.reconnectTimeout = some h


/-! ## A sample host and page -/

/-- A host that numbers its dates and reads no string as a number. -/
def sampleHost : Host :=
  { now := fun n => "date " ++ n.repr, stringToNumber := fun _ => Dbl.nan }

/-- A page with a title, two timer targets and the timestamp. -/
def samplePage : Dom :=
  { elements :=
      [{ id := "eventNow-title", isCheckbox := false, innerText := "", checked := false,
          style := [] },
        { id := "timer-current", isCheckbox := false, innerText := "00:00:07",
          checked := false, style := [] },
        { id := "timer-elapsed", isCheckbox := false, innerText := "00:00:03",
          checked := false, style := [] },
        { id := "timestamp", isCheckbox := false, innerText := "", checked := false,
          style := [] }]
    rootStyle := []
    dateReads := 0 }

/-! ## Theorems -/

/-! ### Decimal rendering -/

theorem toDigitsCore_append_base (b fuel : Nat) : ∀ (n : Nat) (ds : List Char),
    Nat.toDigitsCore b fuel n ds = Nat.toDigitsCore b fuel n [] ++ ds := by
  induction fuel with
  | zero => intro n ds; simp [Nat.toDigitsCore]
  | succ f ih =>
    intro n ds
    simp only [Nat.toDigitsCore]
    split
    · simp
    · rw [ih (n / b) ((n % b).digitChar :: ds), ih (n / b) [(n % b).digitChar]]
      simp

theorem toDigitsCore_fuel_irrel_base (b : Nat) (hb : 2 ≤ b) (f1 : Nat) :
    ∀ (f2 n : Nat) (ds : List Char), n < f1 → n < f2 →
      Nat.toDigitsCore b f1 n ds = Nat.toDigitsCore b f2 n ds := by
  induction f1 with
  | zero => intro f2 n ds h; omega
  | succ f ih =>
    intro f2 n ds h1 h2
    cases f2 with
    | zero => omega
    | succ g =>
      simp only [Nat.toDigitsCore]
      split
      · rfl
      · rename_i hne
        have hpos : 0 < n := by
          rcases Nat.eq_zero_or_pos n with h0 | h0
          · rw [h0] at hne; simp at hne
          · exact h0
        have hlt : n / b < n := Nat.div_lt_self hpos hb
        exact ih g (n / b) _ (by omega) (by omega)

theorem toDigits_step_base (b : Nat) (hb : 2 ≤ b) (n : Nat) :
    Nat.toDigits b n =
      if n < b then [n.digitChar] else Nat.toDigits b (n / b) ++ [(n % b).digitChar] := by
  unfold Nat.toDigits
  simp only [Nat.toDigitsCore]
  by_cases hlt : n < b
  · have h0 : n / b = 0 := Nat.div_eq_of_lt hlt
    have hm : n % b = n := Nat.mod_eq_of_lt hlt
    simp [h0, hm, hlt]
  · have hge : b ≤ n := by omega
    have h0 : ¬ (n / b = 0) := by
      intro h
      have := (Nat.div_eq_zero_iff (by omega)).1 h
      omega
    simp only [h0, hlt, if_false]
    rw [toDigitsCore_append_base]
    congr 1
    have hdl : n / b < n := Nat.div_lt_self (by omega) hb
    exact toDigitsCore_fuel_irrel_base b hb n (n / b + 1) (n / b) [] hdl (by omega)

theorem toDigits_step (n : Nat) :
    Nat.toDigits 10 n =
      if n < 10 then [n.digitChar] else Nat.toDigits 10 (n / 10) ++ [(n % 10).digitChar] :=
  toDigits_step_base 10 (by omega) n

theorem digitChar_isDigit (n : Nat) (h : n < 10) : (Nat.digitChar n).isDigit = true := by
  interval_cases n <;> decide

theorem toDigits_isDigit (n : Nat) : ∀ c ∈ Nat.toDigits 10 n, c.isDigit = true := by
  induction n using Nat.strong_induction_on with
  | _ n ih =>
    rw [toDigits_step]
    split
    · intro c hc
      simp only [List.mem_singleton] at hc
      subst hc
      exact digitChar_isDigit n (by omega)
    · intro c hc
      rw [List.mem_append] at hc
      rcases hc with hc | hc
      · exact ih (n / 10) (by omega) c hc
      · simp only [List.mem_singleton] at hc
        subst hc
        exact digitChar_isDigit (n % 10) (by omega)

theorem toDigits_length_pos (n : Nat) : 1 ≤ (Nat.toDigits 10 n).length := by
  rw [toDigits_step]
  split <;> simp

theorem repr_data (n : Nat) : n.repr.data = Nat.toDigits 10 n := rfl

theorem repr_lt_ten (n : Nat) (h : n < 10) : n.repr.data = [n.digitChar] := by
  rw [repr_data, toDigits_step, if_pos h]

theorem repr_ge_ten (n : Nat) (h : 10 ≤ n) :
    n.repr.data = Nat.toDigits 10 (n / 10) ++ [(n % 10).digitChar] := by
  rw [repr_data, toDigits_step, if_neg (by omega)]

/-- Padding a decimal rendering to two characters prepends one zero below ten and
nothing from ten on. -/
theorem padStart_repr (n : Nat) : padStart n.repr 2 '0' = specPad n := by
  unfold padStart specPad
  by_cases h : n < 10
  · have hl : n.repr.length = 1 := by
      rw [String.length, repr_lt_ten n h]; rfl
    rw [if_pos h, hl]
    rfl
  · have hl : 2 ≤ n.repr.length := by
      rw [String.length, repr_ge_ten n (by omega), List.length_append]
      have := toDigits_length_pos (n / 10)
      simp only [List.length_singleton]
      omega
    rw [if_neg h]
    have h0 : 2 - n.repr.length = 0 := by omega
    rw [h0]
    apply String.ext
    simp

theorem leftPad_div (a : Nat) (b : Nat) :
    leftPad (((a : Int) : ℚ) / ((b : Int) : ℚ)) = specPad (a / b) := by
  unfold leftPad
  have hfl : ⌊(((a : Int) : ℚ) / ((b : Int) : ℚ))⌋ = ((a / b : Nat) : Int) := by
    have := Rat.floor_intCast_div_natCast (a : Int) b
    simp only [Int.cast_natCast] at this ⊢
    rw [this]
    norm_cast
  rw [hfl]
  exact padStart_repr (a / b)

/-- The formatter computes the reference definition of the specification. -/
theorem formatTimer_eq_spec (ms : Int) : formatTimer ms = formatTimerSpec ms := by
  unfold formatTimer formatTimerSpec
  by_cases h : ms ≤ 1000 ∧ ms ≥ -1000
  · rw [if_pos h, if_pos ⟨h.2, h.1⟩]
  · have h2 : ¬ (-1000 ≤ ms ∧ ms ≤ 1000) := fun hh => h ⟨hh.2, hh.1⟩
    rw [if_neg h2]
    simp only [h, if_false]
    have habs : |ms| = ((ms.natAbs : Nat) : Int) := by
      rw [Int.abs_eq_natAbs]
    have hmth : mth = ((3600000 : Nat) : Int) := by decide
    have hmtm : mtm = ((60000 : Nat) : Int) := by decide
    have hmts : mts = ((1000 : Nat) : Int) := by decide
    have ht1 : (|ms|).tmod mth = ((ms.natAbs % 3600000 : Nat) : Int) := by
      rw [habs, hmth, Int.tmod_eq_emod (by omega) (by omega)]
      norm_cast
    have ht2 : (|ms|).tmod mtm = ((ms.natAbs % 60000 : Nat) : Int) := by
      rw [habs, hmtm, Int.tmod_eq_emod (by omega) (by omega)]
      norm_cast
    rw [ht1, ht2, habs, hmth, hmtm, hmts, leftPad_div, leftPad_div, leftPad_div]
    simp only [decide_eq_true_eq]

/-! ### Shape of a formatted timer -/

theorem specPad_data_lt_ten (n : Nat) (h : n < 10) : (specPad n).data = ['0', n.digitChar] := by
  unfold specPad
  rw [if_pos h, String.data_append, repr_lt_ten n h]
  rfl

theorem specPad_data_ge_ten (n : Nat) (h : 10 ≤ n) :
    (specPad n).data = Nat.toDigits 10 (n / 10) ++ [(n % 10).digitChar] := by
  unfold specPad
  rw [if_neg (by omega), repr_ge_ten n h]

theorem specPad_isDigit (n : Nat) : ∀ c ∈ (specPad n).data, c.isDigit = true := by
  by_cases h : n < 10
  · rw [specPad_data_lt_ten n h]
    intro c hc
    simp only [List.mem_cons, List.mem_singleton, List.not_mem_nil, or_false] at hc
    rcases hc with hc | hc
    · subst hc; decide
    · subst hc; exact digitChar_isDigit n h
  · unfold specPad
    rw [if_neg h, repr_data]
    exact toDigits_isDigit n

/-- A padded field ends in two digits. -/
theorem specPad_split (n : Nat) :
    ∃ (pre : List Char) (a b : Char), (specPad n).data = pre ++ [a, b] ∧
      a.isDigit = true ∧ b.isDigit = true ∧ (pre = [] ↔ n < 100) := by
  by_cases h : n < 10
  · refine ⟨[], '0', n.digitChar, ?_, by decide, digitChar_isDigit n h, ?_⟩
    · rw [specPad_data_lt_ten n h]; rfl
    · constructor
      · intro _; omega
      · intro _; rfl
  · have h10 : 10 ≤ n := by omega
    by_cases h2 : n / 10 < 10
    · refine ⟨[], (n / 10).digitChar, (n % 10).digitChar, ?_, digitChar_isDigit _ h2,
        digitChar_isDigit _ (by omega), ?_⟩
      · rw [specPad_data_ge_ten n h10, toDigits_step, if_pos h2]; rfl
      · constructor
        · intro _; omega
        · intro _; rfl
    · refine ⟨Nat.toDigits 10 (n / 10 / 10), (n / 10 % 10).digitChar, (n % 10).digitChar, ?_,
        digitChar_isDigit _ (by omega), digitChar_isDigit _ (by omega), ?_⟩
      · rw [specPad_data_ge_ten n h10, toDigits_step (n / 10), if_neg h2]
        simp
      · constructor
        · intro hp
          have := toDigits_length_pos (n / 10 / 10)
          rw [hp] at this
          simp at this
        · intro hlt; omega

theorem specPad_two (n : Nat) (h : n < 100) :
    ∃ a b : Char, (specPad n).data = [a, b] ∧ a.isDigit = true ∧ b.isDigit = true := by
  obtain ⟨pre, a, b, hd, ha, hb, hp⟩ := specPad_split n
  have : pre = [] := hp.2 h
  subst this
  exact ⟨a, b, by simpa using hd, ha, hb⟩

/-- Outside `[-1000, 1000]` the formatter yields a sign, an hours field ending in
two digits, and two-digit minutes and seconds. -/
theorem formatTimer_fields (ms : Int) (h : ms > 1000 ∨ ms < -1000) :
    ∃ (pre : List Char) (h1 h2 m1 m2 s1 s2 : Char),
      (formatTimer ms).data =
        (if ms < 0 then ['-'] else []) ++ pre ++ [h1, h2, ':', m1, m2, ':', s1, s2] ∧
      (∀ c ∈ pre, c.isDigit = true) ∧ h1.isDigit = true ∧ h2.isDigit = true ∧
      m1.isDigit = true ∧ m2.isDigit = true ∧ s1.isDigit = true ∧ s2.isDigit = true ∧
      (pre = [] ↔ ms.natAbs < 360000000) := by
  rw [formatTimer_eq_spec]
  unfold formatTimerSpec
  have hn : ¬ (-1000 ≤ ms ∧ ms ≤ 1000) := by omega
  rw [if_neg hn]
  obtain ⟨pre, h1, h2, hd, hh1, hh2, hp⟩ := specPad_split (ms.natAbs / 3600000)
  obtain ⟨m1, m2, hm, hm1, hm2⟩ := specPad_two (ms.natAbs % 3600000 / 60000) (by omega)
  obtain ⟨s1, s2, hs, hs1, hs2⟩ := specPad_two (ms.natAbs % 60000 / 1000) (by omega)
  refine ⟨pre, h1, h2, m1, m2, s1, s2, ?_, ?_, hh1, hh2, hm1, hm2, hs1, hs2, ?_⟩
  · simp only [String.data_append, hd, hm, hs]
    split <;> simp
  · intro c hc
    apply specPad_isDigit (ms.natAbs / 3600000)
    rw [hd]
    exact List.mem_append_left _ hc
  · rw [hp]
    omega

/-! ### The time pattern of the clearer -/

theorem timePatternIn_append_left (xs ys : List Char) (h : timePatternIn ys = true) :
    timePatternIn (xs ++ ys) = true := by
  induction xs with
  | nil => simpa using h
  | cons x xs ih =>
    simp only [List.cons_append, timePatternIn, Bool.or_eq_true]
    exact Or.inr ih

theorem timePatternAt_colon (l : List Char) (h : timePatternAt l = true) : ':' ∈ l := by
  match l, h with
  | d1 :: d2 :: c1 :: d3 :: d4 :: c2 :: d5 :: d6 :: _, h =>
    simp only [timePatternAt, Bool.and_eq_true, beq_iff_eq] at h
    have hc : c1 = ':' := h.1.1.1.1.1.2
    subst hc
    simp

theorem timePatternIn_colon (l : List Char) (h : timePatternIn l = true) : ':' ∈ l := by
  induction l with
  | nil => simp [timePatternIn] at h
  | cons c cs ih =>
    simp only [timePatternIn, Bool.or_eq_true] at h
    rcases h with h | h
    · exact timePatternAt_colon _ h
    · exact List.mem_cons_of_mem _ (ih h)

theorem numberToString_no_colon (n : Int) : ':' ∉ (numberToString n).data := by
  intro hmem
  cases n with
  | ofNat m =>
    have := toDigits_isDigit m ':' (by simpa [numberToString, repr_data] using hmem)
    exact absurd this (by decide)
  | negSucc m =>
    simp only [numberToString, String.data_append] at hmem
    rw [List.mem_append] at hmem
    rcases hmem with hmem | hmem
    · exact absurd hmem (by decide)
    · have := toDigits_isDigit (m + 1) ':' (by simpa [repr_data] using hmem)
      exact absurd this (by decide)

/-- A formatted timer holds the time pattern exactly when it was rendered as
`HH:MM:SS`. -/
theorem hasTimePattern_formatTimer (ms : Int) :
    hasTimePattern (formatTimer ms) = true ↔ (ms > 1000 ∨ ms < -1000) := by
  constructor
  · intro h
    by_contra hcon
    have hin : ms ≤ 1000 ∧ ms ≥ -1000 := by omega
    have hcol := timePatternIn_colon _ h
    unfold formatTimer at hcol
    simp only [hin, and_self, if_true] at hcol
    exact numberToString_no_colon ms hcol
  · intro h
    obtain ⟨pre, h1, h2, m1, m2, s1, s2, hd, _, hh1, hh2, hm1, hm2, hs1, hs2, _⟩ :=
      formatTimer_fields ms h
    unfold hasTimePattern
    rw [hd]
    apply timePatternIn_append_left
    simp [timePatternIn, timePatternAt, hh1, hh2, hm1, hm2, hs1, hs2]

/-! ### Element lookup and writes -/

theorem find_modifyFirst (id id' : String) (f : Element → Element)
    (hf : ∀ e, (f e).id = e.id) (l : List Element) :
    (modifyFirst id f l).find? (fun el => el.id == id') =
      if id' = id then (l.find? (fun el => el.id == id')).map f
      else l.find? (fun el => el.id == id') := by
  induction l with
  | nil => simp [modifyFirst]
  | cons e es ih =>
    unfold modifyFirst
    by_cases he : e.id = id
    · have hb : (e.id == id) = true := by simpa using he
      simp only [hb, if_true]
      by_cases hi : id' = id
      · have hb1 : ((f e).id == id') = true := by rw [hf, he, hi]; simp
        have hb2 : (e.id == id') = true := by rw [he, hi]; simp
        rw [if_pos hi]
        simp only [List.find?_cons, hb1, hb2, Option.map_some']
      · have hb1 : ((f e).id == id') = false := by
          rw [hf, he]; simpa using fun h : id = id' => hi h.symm
        have hb2 : (e.id == id') = false := by
          rw [he]; simpa using fun h : id = id' => hi h.symm
        rw [if_neg hi]
        simp only [List.find?_cons, hb1, hb2]
    · have hb : (e.id == id) = false := by simpa using he
      simp only [hb, Bool.false_eq_true, if_false]
      by_cases hi : e.id = id'
      · have hne : ¬ (id' = id) := fun h => he (hi.trans h)
        have hb2 : (e.id == id') = true := by simpa using hi
        rw [if_neg hne]
        simp only [List.find?_cons, hb2]
      · have hb2 : (e.id == id') = false := by simpa using hi
        simp only [List.find?_cons, hb2]
        exact ih

theorem getElementById_modify (d : Dom) (id id' : String) (f : Element → Element)
    (hf : ∀ e, (f e).id = e.id) :
    getElementById (d.modify id f) id' =
      if id' = id then (getElementById d id').map f else getElementById d id' := by
  unfold getElementById Dom.modify
  by_cases h0 : id' = ""
  · simp [h0]
  · simp only [h0, if_false]
    exact find_modifyFirst id id' f hf d.elements

theorem getElementById_stamp (host : Host) (d : Dom) (id : String) (h : id ≠ "timestamp") :
    getElementById (stampTimestamp host d) id = getElementById d id := by
  unfold stampTimestamp
  split
  · rfl
  · have := getElementById_modify d "timestamp" id
      (fun el => { el with innerText := host.now d.dateReads }) (fun _ => rfl)
    rw [if_neg h] at this
    exact this

theorem isSome_getElementById_modify (d : Dom) (id id' : String) (f : Element → Element)
    (hf : ∀ e, (f e).id = e.id) :
    (getElementById (d.modify id f) id').isSome = (getElementById d id').isSome := by
  rw [getElementById_modify d id id' f hf]
  split <;> simp

theorem isSome_getElementById_stamp (host : Host) (d : Dom) (id : String) :
    (getElementById (stampTimestamp host d) id).isSome = (getElementById d id).isSome := by
  unfold stampTimestamp
  split
  · rfl
  · exact isSome_getElementById_modify d "timestamp" id _ (fun _ => rfl)

theorem writeElement_id (field : String) (payload : JVal) (el : Element) :
    (writeElement field payload el).id = el.id := by
  unfold writeElement
  split
  · rfl
  · rfl
  · split
    · rfl
    · split <;> rfl

/-- What an update does to the element found under any identifier other than
`timestamp`. -/
theorem getElementById_updateDOM (host : Host) (field : String) (payload : JVal) (d : Dom)
    (id : String) (h : id ≠ "timestamp") :
    getElementById (updateDOM host field payload d) id =
      if id = field then (getElementById d id).map (writeElement field payload)
      else getElementById d id := by
  unfold updateDOM
  cases hg : getElementById d field with
  | none =>
    simp only
    split
    · rename_i hid
      rw [hid, hg]; rfl
    · rfl
  | some el =>
    simp only
    rw [getElementById_stamp host _ id h]
    exact getElementById_modify d field id _ (writeElement_id field payload)

theorem isSome_getElementById_updateDOM (host : Host) (field : String) (payload : JVal)
    (d : Dom) (id : String) :
    (getElementById (updateDOM host field payload d) id).isSome =
      (getElementById d id).isSome := by
  unfold updateDOM
  split
  · rfl
  · rw [isSome_getElementById_stamp]
    exact isSome_getElementById_modify d field id _ (writeElement_id field payload)

theorem rootStyle_stamp (host : Host) (d : Dom) :
    (stampTimestamp host d).rootStyle = d.rootStyle := by
  unfold stampTimestamp
  split <;> rfl

theorem rootStyle_updateDOM (host : Host) (field : String) (payload : JVal) (d : Dom) :
    (updateDOM host field payload d).rootStyle = d.rootStyle := by
  unfold updateDOM
  split
  · rfl
  · rw [rootStyle_stamp]; rfl

theorem projectEntries_nil (host : Host) (pre : String) (d : Dom) :
    projectEntries host pre [] d = d := rfl

theorem projectEntries_cons (host : Host) (pre : String) (kv : String × JVal)
    (es : List (String × JVal)) (d : Dom) :
    projectEntries host pre (kv :: es) d =
      projectEntries host pre es (updateDOM host (pre ++ kv.1) kv.2 d) := rfl

theorem rootStyle_projectEntries (host : Host) (pre : String) (es : List (String × JVal)) :
    ∀ d : Dom, (projectEntries host pre es d).rootStyle = d.rootStyle := by
  induction es with
  | nil => intro d; rfl
  | cons kv es ih =>
    intro d
    rw [projectEntries_cons, ih, rootStyle_updateDOM]

theorem isSome_getElementById_projectEntries (host : Host) (pre : String)
    (es : List (String × JVal)) (id : String) :
    ∀ d : Dom, (getElementById (projectEntries host pre es d) id).isSome =
      (getElementById d id).isSome := by
  induction es with
  | nil => intro d; rfl
  | cons kv es ih =>
    intro d
    rw [projectEntries_cons, ih, isSome_getElementById_updateDOM]

/-! ### Custom properties -/

theorem lookup_replace_self (name value : String) (style : List (String × String))
    (hany : style.any (fun p => p.1 == name) = true) :
    List.lookup name (style.map (fun p => if p.1 == name then (name, value) else p)) =
      some value := by
  induction style with
  | nil => simp at hany
  | cons p ps ih =>
    obtain ⟨a, b⟩ := p
    by_cases hp : a = name
    · subst hp
      simp only [List.map_cons, beq_self_eq_true, if_true]
      simp only [List.lookup, beq_self_eq_true]
    · have hb : (a == name) = false := by simpa using hp
      have hb2 : (name == a) = false := by simpa using fun h : name = a => hp h.symm
      simp only [List.any_cons, hb, Bool.false_or] at hany
      simp only [List.map_cons, hb, Bool.false_eq_true, if_false]
      simp only [List.lookup, hb2]
      exact ih hany

theorem lookup_append_self (name value : String) (style : List (String × String))
    (hany : ¬ style.any (fun p => p.1 == name) = true) :
    List.lookup name (style ++ [(name, value)]) = some value := by
  induction style with
  | nil => simp [List.lookup]
  | cons p ps ih =>
    obtain ⟨a, b⟩ := p
    simp only [List.any_cons, Bool.or_eq_true, not_or] at hany
    have hb2 : (name == a) = false := by
      have h1 : ¬ (a == name) = true := hany.1
      simpa using fun h : name = a => h1 (by simp [h])
    simp only [List.cons_append, List.lookup, hb2]
    exact ih (by simpa using hany.2)

theorem getProperty_setProperty_self (style : List (String × String)) (name value : String)
    (hv : value ≠ "") : getProperty (setProperty style name value) name = some value := by
  unfold getProperty setProperty
  rw [if_neg hv]
  split
  · rename_i hany
    exact lookup_replace_self name value style hany
  · rename_i hany
    exact lookup_append_self name value style hany

theorem getProperty_setProperty_other (style : List (String × String))
    (name other value : String) (h : other ≠ name) :
    getProperty (setProperty style name value) other = getProperty style other := by
  unfold getProperty setProperty
  have hon : (other == name) = false := by simpa using h
  split
  · induction style with
    | nil => rfl
    | cons p ps ih =>
      obtain ⟨a, b⟩ := p
      by_cases hp : a = name
      · subst hp
        simp only [List.filter_cons, bne_self_eq_false, Bool.false_eq_true, if_false,
          List.lookup, hon]
        exact ih
      · have hpb : (a != name) = true := by simpa using hp
        simp only [List.filter_cons, hpb, if_true, List.lookup]
        split
        · rfl
        · exact ih
  · split
    · rename_i hany
      clear hany
      induction style with
      | nil => rfl
      | cons p ps ih =>
        obtain ⟨a, b⟩ := p
        by_cases hp : a = name
        · subst hp
          simp only [List.map_cons, beq_self_eq_true, if_true]
          simp only [List.lookup, hon]
          exact ih
        · have hpb : (a == name) = false := by simpa using hp
          simp only [List.map_cons, hpb, Bool.false_eq_true, if_false]
          simp only [List.lookup]
          split
          · rfl
          · exact ih
    · rename_i hany
      clear hany
      induction style with
      | nil => simp [List.lookup, hon]
      | cons p ps ih =>
        obtain ⟨a, b⟩ := p
        simp only [List.cons_append, List.lookup]
        split
        · rfl
        · exact ih

/-! ### Binary64: the length of a mantissa -/

theorem bitLength_step (n : Nat) :
    bitLength n = if n < 2 then 1 else bitLength (n / 2) + 1 := by
  unfold bitLength
  rw [toDigits_step_base 2 (by omega) n]
  split <;> simp

theorem bitLength_pos (n : Nat) : 1 ≤ bitLength n := by
  rw [bitLength_step]
  split <;> omega

/-- The binary length of a positive number brackets it between two powers of two. -/
theorem bitLength_bounds (n : Nat) (hn : 0 < n) :
    2 ^ (bitLength n - 1) ≤ n ∧ n < 2 ^ bitLength n := by
  induction n using Nat.strong_induction_on with
  | _ n ih =>
    rw [bitLength_step]
    by_cases h2 : n < 2
    · rw [if_pos h2]
      constructor
      · simp; omega
      · simp; omega
    · rw [if_neg h2]
      have hpos : 0 < n / 2 := by omega
      obtain ⟨h1, h3⟩ := ih (n / 2) (by omega) hpos
      have hb := bitLength_pos (n / 2)
      constructor
      · have : bitLength (n / 2) + 1 - 1 = (bitLength (n / 2) - 1) + 1 := by omega
        rw [this, pow_succ]
        omega
      · rw [pow_succ]
        omega

theorem bitLength_eq_of_bounds (n L : Nat) (hL : 1 ≤ L) (h1 : 2 ^ (L - 1) ≤ n)
    (h2 : n < 2 ^ L) : bitLength n = L := by
  have hn : 0 < n := lt_of_lt_of_le (by positivity) h1
  obtain ⟨b1, b2⟩ := bitLength_bounds n hn
  have hp := bitLength_pos n
  by_contra hne
  rcases Nat.lt_or_gt_of_ne hne with hlt | hgt
  · have : 2 ^ bitLength n ≤ 2 ^ (L - 1) := Nat.pow_le_pow_right (by omega) (by omega)
    omega
  · have : 2 ^ L ≤ 2 ^ (bitLength n - 1) := Nat.pow_le_pow_right (by omega) (by omega)
    omega

theorem bitLength_mul_pow (u j : Nat) (hu : 0 < u) :
    bitLength (u * 2 ^ j) = bitLength u + j := by
  obtain ⟨b1, b2⟩ := bitLength_bounds u hu
  have hp := bitLength_pos u
  apply bitLength_eq_of_bounds
  · omega
  · have : bitLength u + j - 1 = (bitLength u - 1) + j := by omega
    rw [this, pow_add]
    exact Nat.mul_le_mul_right _ b1
  · rw [pow_add]
    exact Nat.mul_lt_mul_of_pos_right b2 (by positivity)

theorem bitLength_one : bitLength 1 = 1 := by decide

/-! ### Rounding of exactly representable values -/

theorem scaleFrac_exact (u j bl : Nat) (hbl : bl ≤ 53) (sh : Int)
    (hsh : sh = 53 - (bl : Int) - (j : Int)) :
    (scaleFrac (u * 2 ^ j) 1 sh).1 / (scaleFrac (u * 2 ^ j) 1 sh).2 = u * 2 ^ (53 - bl) ∧
      (scaleFrac (u * 2 ^ j) 1 sh).1 % (scaleFrac (u * 2 ^ j) 1 sh).2 = 0 ∧
      0 < (scaleFrac (u * 2 ^ j) 1 sh).2 := by
  unfold scaleFrac
  by_cases h0 : 0 ≤ sh
  · rw [if_pos h0]
    simp only [Nat.div_one, Nat.mod_one, Nat.lt_one_iff, true_and, and_true]
    have ht : sh.toNat = 53 - bl - j := by omega
    have hj : j + (53 - bl - j) = 53 - bl := by omega
    rw [ht, Nat.mul_assoc, ← pow_add, hj]
  · rw [if_neg h0]
    simp only [Nat.one_mul]
    have ht : (-sh).toNat = j + bl - 53 := by omega
    have hj : j = (53 - bl) + (j + bl - 53) := by omega
    rw [ht]
    have hsplit : u * 2 ^ j = u * 2 ^ (53 - bl) * 2 ^ (j + bl - 53) := by
      rw [Nat.mul_assoc, ← pow_add, ← hj]
    have hpos : 0 < 2 ^ (j + bl - 53) := by positivity
    refine ⟨?_, ?_, hpos⟩
    · rw [hsplit, Nat.mul_div_cancel _ hpos]
    · rw [hsplit, Nat.mul_mod_left]

theorem roundScaled_exact (neg : Bool) (u j : Nat) (e : Int) (hu : 0 < u) (hlt : u < 2 ^ 53)
    (hlo : -1074 ≤ e + j + bitLength u - 53) (hhi : e + j + bitLength u - 53 ≤ 971) :
    roundScaled neg (u * 2 ^ j) 1 e =
      Dbl.fin neg (u * 2 ^ (53 - bitLength u)) (e + j + bitLength u - 53) := by
  obtain ⟨b1, b2⟩ := bitLength_bounds u hu
  have hp := bitLength_pos u
  have hbl : bitLength u ≤ 53 := by
    by_contra hcon
    have : 2 ^ 53 ≤ 2 ^ (bitLength u - 1) := Nat.pow_le_pow_right (by omega) (by omega)
    omega
  have hM1 : 2 ^ 52 ≤ u * 2 ^ (53 - bitLength u) := by
    have h52 : 52 = (bitLength u - 1) + (53 - bitLength u) := by omega
    calc 2 ^ 52 = 2 ^ (bitLength u - 1) * 2 ^ (53 - bitLength u) := by rw [← pow_add, ← h52]
      _ ≤ u * 2 ^ (53 - bitLength u) := Nat.mul_le_mul_right _ b1
  have hM2 : u * 2 ^ (53 - bitLength u) < 2 ^ 53 := by
    have h53 : 53 = bitLength u + (53 - bitLength u) := by omega
    calc u * 2 ^ (53 - bitLength u) < 2 ^ bitLength u * 2 ^ (53 - bitLength u) :=
          Nat.mul_lt_mul_of_pos_right b2 (by positivity)
      _ = 2 ^ 53 := by rw [← pow_add, ← h53]
  have hne : u * 2 ^ j ≠ 0 := by positivity
  unfold roundScaled
  rw [if_neg hne]
  simp only [bitLength_mul_pow u j hu, bitLength_one]
  have hs0 : e - (((bitLength u + j : Nat) : Int) - ((1 : Nat) : Int) + e - 52) =
      53 - (bitLength u : Int) - (j : Int) := by push_cast; ring
  have ht0 : (((bitLength u + j : Nat) : Int) - ((1 : Nat) : Int) + e - 52) =
      e + j + bitLength u - 53 := by push_cast; ring
  obtain ⟨hq, hr, hd⟩ := scaleFrac_exact u j (bitLength u) hbl _ hs0
  rw [hq, if_neg (Nat.not_lt.mpr hM1), ht0, max_eq_left hlo]
  have hs1 : e - (e + j + bitLength u - 53) = 53 - (bitLength u : Int) - (j : Int) := by ring
  obtain ⟨hq1, hr1, hd1⟩ := scaleFrac_exact u j (bitLength u) hbl _ hs1
  rw [hq1, hr1]
  have hno : ¬ ((scaleFrac (u * 2 ^ j) 1 (e - (e + ↑j + ↑(bitLength u) - 53))).2 < 2 * 0 ∨
      2 * 0 = (scaleFrac (u * 2 ^ j) 1 (e - (e + ↑j + ↑(bitLength u) - 53))).2 ∧
        u * 2 ^ (53 - bitLength u) % 2 = 1) := by
    intro h
    rcases h with h | ⟨h, _⟩ <;> omega
  rw [if_neg hno, if_neg (by omega), if_neg (by omega), if_neg (by omega)]

theorem roundScaled_int (neg : Bool) (u : Nat) (hu : 0 < u) (hlt : u < 2 ^ 53) :
    roundScaled neg u 1 0 =
      Dbl.fin neg (u * 2 ^ (53 - bitLength u)) ((bitLength u : Int) - 53) := by
  have hp := bitLength_pos u
  obtain ⟨_, b2⟩ := bitLength_bounds u hu
  have hbl : bitLength u ≤ 53 := by
    by_contra hcon
    obtain ⟨b1, _⟩ := bitLength_bounds u hu
    have : 2 ^ 53 ≤ 2 ^ (bitLength u - 1) := Nat.pow_le_pow_right (by omega) (by omega)
    omega
  have h := roundScaled_exact neg u 0 0 hu hlt (by omega) (by omega)
  simp only [pow_zero, Nat.mul_one, Nat.cast_zero, zero_add, add_zero] at h
  rw [h]

/-- The number value of a natural number below `2 ^ 53` is that number, exactly. -/
theorem ofInt_natCast (n : Nat) (hn : 0 < n) (hlt : n < 2 ^ 53) :
    Dbl.ofInt (n : Int) =
      Dbl.fin false (n * 2 ^ (53 - bitLength n)) ((bitLength n : Int) - 53) := by
  unfold Dbl.ofInt
  have h1 : decide ((n : Int) < 0) = false := by simp
  rw [h1, Int.natAbs_ofNat]
  exact roundScaled_int false n hn hlt

theorem ofInt_neg_natCast (n : Nat) (hn : 0 < n) (hlt : n < 2 ^ 53) :
    Dbl.ofInt (-(n : Int)) =
      Dbl.fin true (n * 2 ^ (53 - bitLength n)) ((bitLength n : Int) - 53) := by
  unfold Dbl.ofInt
  have h1 : decide (-(n : Int) < 0) = true := by simp; omega
  rw [h1, Int.natAbs_neg, Int.natAbs_ofNat]
  exact roundScaled_int true n hn hlt

theorem ofInt_zero : Dbl.ofInt 0 = Dbl.fin false 0 0 := by decide

/-- An integer from `2 ^ 53` on rounds to a number with a positive exponent, or
overflows. -/
theorem roundScaled_large (neg : Bool) (num : Nat) (hge : 2 ^ 53 ≤ num) :
    roundScaled neg num 1 0 = Dbl.inf neg ∨
      ∃ (m : Nat) (t : Int), roundScaled neg num 1 0 = Dbl.fin neg m t ∧ 1 ≤ t := by
  have hn : 0 < num := lt_of_lt_of_le (by positivity) hge
  obtain ⟨b1, b2⟩ := bitLength_bounds num hn
  have hbl : 54 ≤ bitLength num := by
    by_contra hcon
    have : 2 ^ bitLength num ≤ 2 ^ 53 := Nat.pow_le_pow_right (by omega) (by omega)
    omega
  have hne : num ≠ 0 := by omega
  unfold roundScaled
  rw [if_neg hne]
  simp only [bitLength_one]
  have hs0 : (0 : Int) - (((bitLength num : Nat) : Int) - ((1 : Nat) : Int) + 0 - 52) =
      -(((bitLength num - 53 : Nat)) : Int) := by push_cast; omega
  have ht0 : (((bitLength num : Nat) : Int) - ((1 : Nat) : Int) + 0 - 52) =
      ((bitLength num - 53 : Nat) : Int) := by push_cast; omega
  have hsf : scaleFrac num 1 (-(((bitLength num - 53 : Nat)) : Int)) =
      (num, 2 ^ (bitLength num - 53)) := by
    unfold scaleFrac
    rw [if_neg (by omega)]
    simp
  have hq0 : 2 ^ 52 ≤ num / 2 ^ (bitLength num - 53) := by
    rw [Nat.le_div_iff_mul_le (by positivity), ← pow_add]
    have : 52 + (bitLength num - 53) = bitLength num - 1 := by omega
    rw [this]
    exact b1
  rw [hs0, hsf]
  simp only
  rw [if_neg (Nat.not_lt.mpr hq0), ht0, max_eq_left (by omega), zero_sub, hsf]
  simp only
  split_ifs
  all_goals first
    | contradiction
    | (left; rfl)
    | (right; exact ⟨_, _, rfl, by omega⟩)

/-! ### Division of two numbers with full mantissas -/

theorem scaleFrac_nonneg (num den : Nat) (s : Nat) :
    scaleFrac num den (s : Int) = (num * 2 ^ s, den) := by
  unfold scaleFrac
  rw [if_pos (by omega)]
  simp

/-- The quotient of two normal mantissas: the scaled quotient `q` has 53 bits, and
the result is `q` or `q + 1` at the matching exponent. -/
theorem roundScaled_mantissas (ma mb : Nat) (e : Int) (ha1 : 2 ^ 52 ≤ ma) (ha2 : ma < 2 ^ 53)
    (hb1 : 2 ^ 52 ≤ mb) (hb2 : mb < 2 ^ 53) (he1 : -100 ≤ e) (he2 : e ≤ 100) :
    ∃ sh : Nat, (sh = 52 ∨ sh = 53) ∧ 2 ^ 52 ≤ ma * 2 ^ sh / mb ∧ ma * 2 ^ sh / mb < 2 ^ 53 ∧
      roundScaled false ma mb e =
        (if (if mb < 2 * (ma * 2 ^ sh % mb) ∨
              (2 * (ma * 2 ^ sh % mb) = mb ∧ ma * 2 ^ sh / mb % 2 = 1)
            then ma * 2 ^ sh / mb + 1 else ma * 2 ^ sh / mb) = 2 ^ 53
          then Dbl.fin false (2 ^ 52) (e - sh + 1)
          else Dbl.fin false
            (if mb < 2 * (ma * 2 ^ sh % mb) ∨
              (2 * (ma * 2 ^ sh % mb) = mb ∧ ma * 2 ^ sh / mb % 2 = 1)
            then ma * 2 ^ sh / mb + 1 else ma * 2 ^ sh / mb) (e - sh)) := by
  have hla : bitLength ma = 53 := bitLength_eq_of_bounds ma 53 (by omega) ha1 ha2
  have hlb : bitLength mb = 53 := bitLength_eq_of_bounds mb 53 (by omega) hb1 hb2
  have hne : ma ≠ 0 := by
    have : 0 < 2 ^ 52 := by positivity
    omega
  have hmb : 0 < mb := lt_of_lt_of_le (by positivity) hb1
  have hs0 : e - (((53 : Nat) : Int) - ((53 : Nat) : Int) + e - 52) = ((52 : Nat) : Int) := by
    push_cast; ring
  have ht0 : (((53 : Nat) : Int) - ((53 : Nat) : Int) + e - 52) = e - 52 := by
    push_cast; ring
  unfold roundScaled
  rw [if_neg hne]
  simp only [hla, hlb]
  rw [hs0, scaleFrac_nonneg, ht0]
  simp only
  by_cases hlt : ma * 2 ^ 52 / mb < 2 ^ 52
  · -- the quotient needs one more bit
    refine ⟨53, Or.inr rfl, ?_, ?_, ?_⟩
    · rw [Nat.le_div_iff_mul_le hmb]
      have : 2 ^ 52 * mb ≤ 2 ^ 52 * 2 ^ 53 := Nat.mul_le_mul_left _ (le_of_lt hb2)
      have h2 : (2 : Nat) ^ 52 * 2 ^ 53 = 2 ^ 52 * 2 ^ 53 := rfl
      calc 2 ^ 52 * mb ≤ 2 ^ 52 * 2 ^ 53 := this
        _ ≤ ma * 2 ^ 53 := Nat.mul_le_mul_right _ ha1
    · rw [Nat.div_lt_iff_lt_mul hmb]
      have hmalt : ma < mb := by
        by_contra hcon
        have hge : mb ≤ ma := by omega
        have : 2 ^ 52 ≤ ma * 2 ^ 52 / mb := by
          rw [Nat.le_div_iff_mul_le hmb]
          rw [Nat.mul_comm]
          exact Nat.mul_le_mul_right _ hge
        omega
      rw [Nat.mul_comm]
      exact Nat.mul_lt_mul_of_pos_left hmalt (by positivity)
    · rw [if_pos hlt]
      have hmax : max (e - 52 - 1) (-1074) = e - 53 := by
        rw [max_eq_left (by omega)]; ring
      rw [hmax]
      have hs1 : e - (e - 53) = ((53 : Nat) : Int) := by push_cast; ring
      rw [hs1, scaleFrac_nonneg]
      simp only
      have hq1 : ¬ ((if mb < 2 * (ma * 2 ^ 53 % mb) ∨
              (2 * (ma * 2 ^ 53 % mb) = mb ∧ ma * 2 ^ 53 / mb % 2 = 1)
            then ma * 2 ^ 53 / mb + 1 else ma * 2 ^ 53 / mb) = 0) := by
        have hq : 2 ^ 52 ≤ ma * 2 ^ 53 / mb := by
          rw [Nat.le_div_iff_mul_le hmb]
          calc 2 ^ 52 * mb ≤ 2 ^ 52 * 2 ^ 53 := Nat.mul_le_mul_left _ (le_of_lt hb2)
            _ ≤ ma * 2 ^ 53 := Nat.mul_le_mul_right _ ha1
        split <;> omega
      rw [if_neg hq1, if_neg (by omega : ¬ (971 : Int) < e - 53 + 1),
        if_neg (by omega : ¬ (971 : Int) < e - 53)]
      push_cast
      rfl
  · refine ⟨52, Or.inl rfl, by omega, ?_, ?_⟩
    · rw [Nat.div_lt_iff_lt_mul hmb]
      calc ma * 2 ^ 52 < 2 ^ 53 * 2 ^ 52 := Nat.mul_lt_mul_of_pos_right ha2 (by positivity)
        _ ≤ 2 ^ 53 * mb := Nat.mul_le_mul_left _ hb1
    · rw [if_neg hlt]
      have hmax : max (e - 52) (-1074) = e - 52 := max_eq_left (by omega)
      rw [hmax]
      have hs1 : e - (e - 52) = ((52 : Nat) : Int) := by push_cast; ring
      rw [hs1, scaleFrac_nonneg]
      simp only
      have hq1 : ¬ ((if mb < 2 * (ma * 2 ^ 52 % mb) ∨
              (2 * (ma * 2 ^ 52 % mb) = mb ∧ ma * 2 ^ 52 / mb % 2 = 1)
            then ma * 2 ^ 52 / mb + 1 else ma * 2 ^ 52 / mb) = 0) := by
        split <;> omega
      rw [if_neg hq1, if_neg (by omega : ¬ (971 : Int) < e - 52 + 1),
        if_neg (by omega : ¬ (971 : Int) < e - 52)]
      push_cast
      rfl

/-- The arithmetic behind `Math.floor (a / b)`: the rounded 53-bit quotient of `a` by
`b`, scaled by `P`, lies in the same unit interval as the exact quotient. -/
theorem rounded_quotient_bounds (a b P c : Nat) (hb : 0 < b) (hc : 0 < c) (hP : 0 < P)
    (ha : a < 2 ^ 53) (hq : 2 ^ 52 ≤ a * P * c / (b * c)) :
    a / b * P ≤
        (if b * c < 2 * (a * P * c % (b * c)) ∨
            (2 * (a * P * c % (b * c)) = b * c ∧ a * P * c / (b * c) % 2 = 1)
          then a * P * c / (b * c) + 1 else a * P * c / (b * c)) ∧
      (if b * c < 2 * (a * P * c % (b * c)) ∨
            (2 * (a * P * c % (b * c)) = b * c ∧ a * P * c / (b * c) % 2 = 1)
          then a * P * c / (b * c) + 1 else a * P * c / (b * c)) < (a / b + 1) * P := by
  rw [Nat.mul_div_mul_right _ _ hc, Nat.mul_mod_mul_right] at *
  have hA : a * P = a * P / b * b + a * P % b := (Nat.div_add_mod' (a * P) b).symm
  have hρ' : a * P % b < b := Nat.mod_lt _ hb
  have ha' : a = a / b * b + a % b := (Nat.div_add_mod' a b).symm
  have hρ : a % b < b := Nat.mod_lt _ hb
  have h1 : a / b * P ≤ a * P / b := by
    rw [Nat.le_div_iff_mul_le hb]
    calc a / b * P * b = a / b * b * P := by ring
      _ ≤ a * P := Nat.mul_le_mul_right _ (Nat.div_mul_le_self a b)
  have h2 : a * P / b < (a / b + 1) * P := by
    rw [Nat.div_lt_iff_lt_mul hb]
    have hlt : a < (a / b + 1) * b := by
      rw [Nat.add_mul, Nat.one_mul]
      omega
    calc a * P < (a / b + 1) * b * P := Nat.mul_lt_mul_of_pos_right hlt hP
      _ = (a / b + 1) * P * b := by ring
  split
  · rename_i hup
    refine ⟨by omega, ?_⟩
    by_contra hcon
    have heq : a * P / b + 1 = (a / b + 1) * P := by omega
    -- the round-up condition gives `b ≤ 2 * (a * P % b)`
    have hhalf : b ≤ 2 * (a * P % b) := by
      rcases hup with h | ⟨h, _⟩
      · have h' : b * c < (2 * (a * P % b)) * c := by
          calc b * c < 2 * (a * P % b * c) := h
            _ = (2 * (a * P % b)) * c := by ring
        exact le_of_lt (Nat.lt_of_mul_lt_mul_right h')
      · have h' : (2 * (a * P % b)) * c = b * c := by
          calc (2 * (a * P % b)) * c = 2 * (a * P % b * c) := by ring
            _ = b * c := h
        exact le_of_eq (Nat.eq_of_mul_eq_mul_right hc h').symm
    have e1 : (a * P / b + 1) * b = a / b * b * P + b * P := by
      rw [heq]; ring
    have e2 : a * P = a / b * b * P + a % b * P := by
      calc a * P = (a / b * b + a % b) * P := by rw [← ha']
        _ = a / b * b * P + a % b * P := by ring
    have e3 : a % b * P + P ≤ b * P := by
      calc a % b * P + P = (a % b + 1) * P := by ring
        _ ≤ b * P := Nat.mul_le_mul_right _ hρ
    have e4 : a * P + P ≤ 2 ^ 53 * P := by
      calc a * P + P = (a + 1) * P := by ring
        _ ≤ 2 ^ 53 * P := Nat.mul_le_mul_right _ ha
    have e5 : 2 ^ 52 * b ≤ a * P / b * b := Nat.mul_le_mul_right _ hq
    have e6 : (a * P / b + 1) * b = a * P / b * b + b := by ring
    generalize a * P / b * b = qb at *
    generalize a / b * b * P = x at *
    generalize a % b * P = y at *
    generalize b * P = z at *
    generalize a * P % b = w at *
    generalize a * P = A at *
    omega
  · exact ⟨h1, h2⟩

theorem ofInt_natCast_eq (n : Nat) : Dbl.ofInt (n : Int) = roundScaled false n 1 0 := by
  unfold Dbl.ofInt
  have h1 : decide ((n : Int) < 0) = false := by simp
  rw [h1, Int.natAbs_ofNat]

theorem ofInt_mantissa (m : Nat) (h1 : 2 ^ 52 ≤ m) (h2 : m < 2 ^ 53) :
    Dbl.ofInt (m : Int) = Dbl.fin false m 0 := by
  have hl : bitLength m = 53 := bitLength_eq_of_bounds m 53 (by omega) h1 h2
  have hpos : 0 < m := lt_of_lt_of_le (by positivity) h1
  rw [ofInt_natCast m hpos h2, hl]
  simp

theorem floor_fin_pos (m : Nat) (e : Int) :
    Dbl.floor (Dbl.fin false m e) =
      if 0 ≤ e then Dbl.fin false m e else roundScaled false (m / 2 ^ (-e).toNat) 1 0 := by
  simp [Dbl.floor]

/-- On integers below `2 ^ 53`, `Math.floor (a / b)` computed in binary64 is the
integer quotient. -/
theorem floor_div_ofInt (a b : Nat) (ha : a < 2 ^ 53) (hb0 : 0 < b) (hb : b < 2 ^ 53) :
    Dbl.floor ((Dbl.ofInt (a : Int)).div (Dbl.ofInt (b : Int))) =
      Dbl.ofInt ((a / b : Nat) : Int) := by
  obtain ⟨lb1, lb2⟩ := bitLength_bounds b hb0
  have hpb := bitLength_pos b
  have hlb : bitLength b ≤ 53 := by
    by_contra hcon
    have : 2 ^ 53 ≤ 2 ^ (bitLength b - 1) := Nat.pow_le_pow_right (by omega) (by omega)
    omega
  have hMb1 : 2 ^ 52 ≤ b * 2 ^ (53 - bitLength b) := by
    have h52 : 52 = (bitLength b - 1) + (53 - bitLength b) := by omega
    calc 2 ^ 52 = 2 ^ (bitLength b - 1) * 2 ^ (53 - bitLength b) := by rw [← pow_add, ← h52]
      _ ≤ b * 2 ^ (53 - bitLength b) := Nat.mul_le_mul_right _ lb1
  have hMb2 : b * 2 ^ (53 - bitLength b) < 2 ^ 53 := by
    have h53 : 53 = bitLength b + (53 - bitLength b) := by omega
    calc b * 2 ^ (53 - bitLength b) < 2 ^ bitLength b * 2 ^ (53 - bitLength b) :=
          Nat.mul_lt_mul_of_pos_right lb2 (by positivity)
      _ = 2 ^ 53 := by rw [← pow_add, ← h53]
  have hMb0 : b * 2 ^ (53 - bitLength b) ≠ 0 := by
    have : 0 < 2 ^ 52 := by positivity
    omega
  rw [ofInt_natCast b hb0 hb]
  rcases Nat.eq_zero_or_pos a with ha0 | ha0
  · subst ha0
    simp only [Nat.cast_zero, ofInt_zero, Dbl.div, hMb0, if_false, Nat.zero_div]
    have hz : roundScaled (xor false false) 0 (b * 2 ^ (53 - bitLength b))
        (0 - ((bitLength b : Int) - 53)) = Dbl.fin false 0 0 := by
      unfold roundScaled
      simp
    rw [hz]
    rfl
  obtain ⟨la1, la2⟩ := bitLength_bounds a ha0
  have hpa := bitLength_pos a
  have hla : bitLength a ≤ 53 := by
    by_contra hcon
    have : 2 ^ 53 ≤ 2 ^ (bitLength a - 1) := Nat.pow_le_pow_right (by omega) (by omega)
    omega
  have hMa1 : 2 ^ 52 ≤ a * 2 ^ (53 - bitLength a) := by
    have h52 : 52 = (bitLength a - 1) + (53 - bitLength a) := by omega
    calc 2 ^ 52 = 2 ^ (bitLength a - 1) * 2 ^ (53 - bitLength a) := by rw [← pow_add, ← h52]
      _ ≤ a * 2 ^ (53 - bitLength a) := Nat.mul_le_mul_right _ la1
  have hMa2 : a * 2 ^ (53 - bitLength a) < 2 ^ 53 := by
    have h53 : 53 = bitLength a + (53 - bitLength a) := by omega
    calc a * 2 ^ (53 - bitLength a) < 2 ^ bitLength a * 2 ^ (53 - bitLength a) :=
          Nat.mul_lt_mul_of_pos_right la2 (by positivity)
      _ = 2 ^ 53 := by rw [← pow_add, ← h53]
  rw [ofInt_natCast a ha0 ha]
  simp only [Dbl.div, hMb0, if_false, Bool.xor_false]
  obtain ⟨sh, hsh, hq1, hq2, hres⟩ := roundScaled_mantissas (a * 2 ^ (53 - bitLength a))
    (b * 2 ^ (53 - bitLength b)) ((bitLength a : Int) - 53 - ((bitLength b : Int) - 53))
    hMa1 hMa2 hMb1 hMb2 (by omega) (by omega)
  rw [hres]
  -- rewrite numerator and denominator as `a * P * c` and `b * c`
  have hS : (53 - bitLength a) + sh = (sh + bitLength b - bitLength a) + (53 - bitLength b) := by
    rcases hsh with h | h <;> omega
  have hN : a * 2 ^ (53 - bitLength a) * 2 ^ sh =
      a * 2 ^ (sh + bitLength b - bitLength a) * 2 ^ (53 - bitLength b) := by
    rw [Nat.mul_assoc, ← pow_add, hS, pow_add, Nat.mul_assoc]
  rw [hN] at hq1 hq2 ⊢
  have hbounds := rounded_quotient_bounds a b (2 ^ (sh + bitLength b - bitLength a))
    (2 ^ (53 - bitLength b)) hb0 (by positivity) (by positivity) ha hq1
  have hmge : 2 ^ 52 ≤
      (if b * 2 ^ (53 - bitLength b) <
            2 * (a * 2 ^ (sh + bitLength b - bitLength a) * 2 ^ (53 - bitLength b) %
              (b * 2 ^ (53 - bitLength b))) ∨
          (2 * (a * 2 ^ (sh + bitLength b - bitLength a) * 2 ^ (53 - bitLength b) %
              (b * 2 ^ (53 - bitLength b))) = b * 2 ^ (53 - bitLength b) ∧
            a * 2 ^ (sh + bitLength b - bitLength a) * 2 ^ (53 - bitLength b) /
              (b * 2 ^ (53 - bitLength b)) % 2 = 1)
        then a * 2 ^ (sh + bitLength b - bitLength a) * 2 ^ (53 - bitLength b) /
            (b * 2 ^ (53 - bitLength b)) + 1
        else a * 2 ^ (sh + bitLength b - bitLength a) * 2 ^ (53 - bitLength b) /
            (b * 2 ^ (53 - bitLength b))) := by
    split <;> omega
  have hmle :
      (if b * 2 ^ (53 - bitLength b) <
            2 * (a * 2 ^ (sh + bitLength b - bitLength a) * 2 ^ (53 - bitLength b) %
              (b * 2 ^ (53 - bitLength b))) ∨
          (2 * (a * 2 ^ (sh + bitLength b - bitLength a) * 2 ^ (53 - bitLength b) %
              (b * 2 ^ (53 - bitLength b))) = b * 2 ^ (53 - bitLength b) ∧
            a * 2 ^ (sh + bitLength b - bitLength a) * 2 ^ (53 - bitLength b) /
              (b * 2 ^ (53 - bitLength b)) % 2 = 1)
        then a * 2 ^ (sh + bitLength b - bitLength a) * 2 ^ (53 - bitLength b) /
            (b * 2 ^ (53 - bitLength b)) + 1
        else a * 2 ^ (sh + bitLength b - bitLength a) * 2 ^ (53 - bitLength b) /
            (b * 2 ^ (53 - bitLength b))) ≤ 2 ^ 53 := by
    split <;> omega
  generalize (if b * 2 ^ (53 - bitLength b) <
            2 * (a * 2 ^ (sh + bitLength b - bitLength a) * 2 ^ (53 - bitLength b) %
              (b * 2 ^ (53 - bitLength b))) ∨
          (2 * (a * 2 ^ (sh + bitLength b - bitLength a) * 2 ^ (53 - bitLength b) %
              (b * 2 ^ (53 - bitLength b))) = b * 2 ^ (53 - bitLength b) ∧
            a * 2 ^ (sh + bitLength b - bitLength a) * 2 ^ (53 - bitLength b) /
              (b * 2 ^ (53 - bitLength b)) % 2 = 1)
        then a * 2 ^ (sh + bitLength b - bitLength a) * 2 ^ (53 - bitLength b) /
            (b * 2 ^ (53 - bitLength b)) + 1
        else a * 2 ^ (sh + bitLength b - bitLength a) * 2 ^ (53 - bitLength b) /
            (b * 2 ^ (53 - bitLength b))) = m at hbounds hmge hmle ⊢
  obtain ⟨hlo, hhi⟩ := hbounds
  have hQa : a / b ≤ a := Nat.div_le_self a b
  have hexp : ((bitLength a : Int) - 53 - ((bitLength b : Int) - 53)) - (sh : Int) =
      -((sh + bitLength b - bitLength a : Nat) : Int) := by
    rcases hsh with h | h <;> omega
  rw [hexp]
  generalize hSdef : sh + bitLength b - bitLength a = S at hlo hhi ⊢
  rw [ofInt_natCast_eq]
  by_cases hm53 : m = 2 ^ 53
  · rw [if_pos hm53]
    subst hm53
    rw [floor_fin_pos]
    by_cases hS0 : (0 : Int) ≤ -(S : Int) + 1
    · rw [if_pos hS0]
      have hS1 : S = 0 ∨ S = 1 := by omega
      rcases hS1 with h | h
      · subst h
        simp only [pow_zero, Nat.mul_one] at hlo hhi
        omega
      · subst h
        simp only [pow_one] at hlo hhi
        have hQ : a / b = 2 ^ 52 := by omega
        rw [hQ, ← ofInt_natCast_eq, ofInt_mantissa (2 ^ 52) (le_refl _) (by norm_num)]
        rfl
    · rw [if_neg hS0]
      have hS2 : 2 ≤ S := by omega
      have htn : (-(-(S : Int) + 1)).toNat = S - 1 := by omega
      rw [htn]
      congr 1
      apply Nat.div_eq_of_lt_le
      · have hpow : 2 ^ S = 2 * 2 ^ (S - 1) := by
          rw [← pow_succ']
          congr 1
          omega
        rw [hpow] at hlo
        have : a / b * (2 * 2 ^ (S - 1)) = 2 * (a / b * 2 ^ (S - 1)) := by ring
        omega
      · have hpow : 2 ^ S = 2 * 2 ^ (S - 1) := by
          rw [← pow_succ']
          congr 1
          omega
        rw [hpow] at hhi
        have : (a / b + 1) * (2 * 2 ^ (S - 1)) = 2 * ((a / b + 1) * 2 ^ (S - 1)) := by ring
        show 2 ^ 52 < (a / b + 1) * 2 ^ (S - 1)
        omega
  · rw [if_neg hm53]
    rw [floor_fin_pos]
    by_cases hS0 : (0 : Int) ≤ -(S : Int)
    · rw [if_pos hS0]
      have hS1 : S = 0 := by omega
      subst hS1
      simp only [pow_zero, Nat.mul_one] at hlo hhi
      have hQ : a / b = m := by omega
      rw [hQ, ← ofInt_natCast_eq, ofInt_mantissa m hmge (by omega)]
      rfl
    · rw [if_neg hS0]
      have htn : (-(-(S : Int))).toNat = S := by omega
      rw [htn]
      congr 1
      exact Nat.div_eq_of_lt_le hlo hhi

/-! ### Remainder, absolute value and comparison on exact integers -/

theorem bitLength_le_53 (n : Nat) (hn : 0 < n) (hlt : n < 2 ^ 53) : bitLength n ≤ 53 := by
  obtain ⟨b1, _⟩ := bitLength_bounds n hn
  by_contra hcon
  have : 2 ^ 53 ≤ 2 ^ (bitLength n - 1) := Nat.pow_le_pow_right (by omega) (by omega)
  omega

/-- On integers below `2 ^ 53`, `a % b` computed in binary64 is the integer
remainder. -/
theorem mod_ofInt (a b : Nat) (ha : a < 2 ^ 53) (hb0 : 0 < b) (hb : b < 2 ^ 53) :
    (Dbl.ofInt (a : Int)).mod (Dbl.ofInt (b : Int)) = Dbl.ofInt ((a % b : Nat) : Int) := by
  have hpb := bitLength_pos b
  have hlb := bitLength_le_53 b hb0 hb
  have hMb0 : b * 2 ^ (53 - bitLength b) ≠ 0 := by positivity
  rw [ofInt_natCast b hb0 hb]
  rcases Nat.eq_zero_or_pos a with ha0 | ha0
  · subst ha0
    simp only [Nat.cast_zero, ofInt_zero, Dbl.mod, hMb0, if_false, Nat.zero_mul, Nat.zero_mod]
    unfold roundScaled
    simp
  have hpa := bitLength_pos a
  have hla := bitLength_le_53 a ha0 ha
  rw [ofInt_natCast a ha0 ha]
  simp only [Dbl.mod, hMb0, if_false]
  -- both mantissas at the smaller exponent
  have key : ∀ l : Nat, l ≤ bitLength a → l ≤ bitLength b →
      min ((bitLength a : Int) - 53) ((bitLength b : Int) - 53) = (l : Int) - 53 →
      roundScaled false
          (a * 2 ^ (53 - bitLength a) *
              2 ^ ((bitLength a : Int) - 53 -
                min ((bitLength a : Int) - 53) ((bitLength b : Int) - 53)).toNat %
            (b * 2 ^ (53 - bitLength b) *
              2 ^ ((bitLength b : Int) - 53 -
                min ((bitLength a : Int) - 53) ((bitLength b : Int) - 53)).toNat))
          1 (min ((bitLength a : Int) - 53) ((bitLength b : Int) - 53)) =
        Dbl.ofInt ((a % b : Nat) : Int) := by
    intro l hl1 hl2 hmin
    rw [hmin]
    have t1 : ((bitLength a : Int) - 53 - ((l : Int) - 53)).toNat = bitLength a - l := by omega
    have t2 : ((bitLength b : Int) - 53 - ((l : Int) - 53)).toNat = bitLength b - l := by omega
    rw [t1, t2]
    have eA : a * 2 ^ (53 - bitLength a) * 2 ^ (bitLength a - l) = a * 2 ^ (53 - l) := by
      rw [Nat.mul_assoc, ← pow_add]
      congr 2
      omega
    have eB : b * 2 ^ (53 - bitLength b) * 2 ^ (bitLength b - l) = b * 2 ^ (53 - l) := by
      rw [Nat.mul_assoc, ← pow_add]
      congr 2
      omega
    rw [eA, eB, Nat.mul_mod_mul_right]
    rcases Nat.eq_zero_or_pos (a % b) with hr | hr
    · rw [hr]
      simp only [Nat.zero_mul, Nat.cast_zero, ofInt_zero]
      unfold roundScaled
      simp
    · have hrlt : a % b < 2 ^ 53 := lt_of_lt_of_le (Nat.mod_lt a hb0) (le_of_lt hb)
      have hlr := bitLength_le_53 (a % b) hr hrlt
      have hpr := bitLength_pos (a % b)
      rw [roundScaled_exact false (a % b) (53 - l) ((l : Int) - 53) hr hrlt (by omega) (by omega),
        ofInt_natCast (a % b) hr hrlt]
      congr 1
      omega
  by_cases hcmp : bitLength a ≤ bitLength b
  · exact key (bitLength a) (le_refl _) hcmp (min_eq_left (by omega))
  · exact key (bitLength b) (by omega) (le_refl _) (min_eq_right (by omega))

theorem scaleFrac_ofInt (n : Nat) (hl : bitLength n ≤ 53) :
    scaleFrac (n * 2 ^ (53 - bitLength n)) 1 ((bitLength n : Int) - 53) =
      (n * 2 ^ (53 - bitLength n), 2 ^ (53 - bitLength n)) := by
  unfold scaleFrac
  by_cases h : (0 : Int) ≤ (bitLength n : Int) - 53
  · rw [if_pos h]
    have h53 : bitLength n = 53 := by omega
    rw [h53]
    simp
  · rw [if_neg h]
    have ht : (-((bitLength n : Int) - 53)).toNat = 53 - bitLength n := by omega
    rw [ht, Nat.one_mul]

/-- The exact value of the number for an integer below `2 ^ 53`, as a fraction. -/
theorem ofInt_frac (z : Int) (hz : |z| < 2 ^ 53) :
    ∃ (s : Bool) (m : Nat) (e : Int) (D : Nat), Dbl.ofInt z = Dbl.fin s m e ∧ 0 < D ∧
      Dbl.toFrac s m e = (z * (D : Int), D) := by
  rcases lt_trichotomy z 0 with hneg | hzero | hpos
  · obtain ⟨n, hn⟩ : ∃ n : Nat, z = -(n : Int) := ⟨z.natAbs, by omega⟩
    subst hn
    have hn0 : 0 < n := by omega
    have hlt : n < 2 ^ 53 := by
      rw [abs_neg, Nat.abs_cast] at hz
      exact_mod_cast hz
    refine ⟨true, _, _, 2 ^ (53 - bitLength n), ofInt_neg_natCast n hn0 hlt, by positivity, ?_⟩
    unfold Dbl.toFrac
    rw [scaleFrac_ofInt n (bitLength_le_53 n hn0 hlt)]
    simp
  · subst hzero
    exact ⟨false, 0, 0, 1, ofInt_zero, by omega, by decide⟩
  · obtain ⟨n, hn⟩ : ∃ n : Nat, z = (n : Int) := ⟨z.natAbs, by omega⟩
    subst hn
    have hn0 : 0 < n := by omega
    have hlt : n < 2 ^ 53 := by
      rw [Nat.abs_cast] at hz
      exact_mod_cast hz
    refine ⟨false, _, _, 2 ^ (53 - bitLength n), ofInt_natCast n hn0 hlt, by positivity, ?_⟩
    unfold Dbl.toFrac
    rw [scaleFrac_ofInt n (bitLength_le_53 n hn0 hlt)]
    simp

theorem le_ofInt (x y : Int) (hx : |x| < 2 ^ 53) (hy : |y| < 2 ^ 53) :
    Dbl.le (Dbl.ofInt x) (Dbl.ofInt y) = decide (x ≤ y) := by
  obtain ⟨s, m, e, D, h1, hD, hf⟩ := ofInt_frac x hx
  obtain ⟨t, n, f, E, h2, hE, hg⟩ := ofInt_frac y hy
  rw [h1, h2]
  simp only [Dbl.le, hf, hg]
  have hDE : (0 : Int) < (D : Int) * (E : Int) := by positivity
  have e1 : x * (D : Int) * (E : Int) = x * ((D : Int) * (E : Int)) := by ring
  have e2 : y * (E : Int) * (D : Int) = y * ((D : Int) * (E : Int)) := by ring
  rw [e1, e2]
  congr 1
  exact propext (mul_le_mul_right hDE)

theorem lt_ofInt (x y : Int) (hx : |x| < 2 ^ 53) (hy : |y| < 2 ^ 53) :
    Dbl.lt (Dbl.ofInt x) (Dbl.ofInt y) = decide (x < y) := by
  obtain ⟨s, m, e, D, h1, hD, hf⟩ := ofInt_frac x hx
  obtain ⟨t, n, f, E, h2, hE, hg⟩ := ofInt_frac y hy
  rw [h1, h2]
  simp only [Dbl.lt, hf, hg]
  have hDE : (0 : Int) < (D : Int) * (E : Int) := by positivity
  have e1 : x * (D : Int) * (E : Int) = x * ((D : Int) * (E : Int)) := by ring
  have e2 : y * (E : Int) * (D : Int) = y * ((D : Int) * (E : Int)) := by ring
  rw [e1, e2]
  congr 1
  exact propext (mul_lt_mul_right hDE)

theorem abs_ofInt (z : Int) (hz : |z| < 2 ^ 53) :
    Dbl.abs (Dbl.ofInt z) = Dbl.ofInt ((z.natAbs : Nat) : Int) := by
  rcases lt_trichotomy z 0 with hneg | hzero | hpos
  · obtain ⟨n, hn⟩ : ∃ n : Nat, z = -(n : Int) := ⟨z.natAbs, by omega⟩
    subst hn
    have hn0 : 0 < n := by omega
    have hlt : n < 2 ^ 53 := by
      rw [abs_neg, Nat.abs_cast] at hz
      exact_mod_cast hz
    rw [ofInt_neg_natCast n hn0 hlt, Int.natAbs_neg, Int.natAbs_ofNat,
      ofInt_natCast n hn0 hlt]
    rfl
  · subst hzero
    decide
  · obtain ⟨n, hn⟩ : ∃ n : Nat, z = (n : Int) := ⟨z.natAbs, by omega⟩
    subst hn
    have hn0 : 0 < n := by omega
    have hlt : n < 2 ^ 53 := by
      rw [Nat.abs_cast] at hz
      exact_mod_cast hz
    rw [Int.natAbs_ofNat, ofInt_natCast n hn0 hlt]
    rfl

/-! ### The decimal text of an exact integer -/

/-- The decimal digit count of a positive number brackets it between two powers of
ten. -/
theorem toDigits_length_bounds (n : Nat) (hn : 0 < n) :
    10 ^ ((Nat.toDigits 10 n).length - 1) ≤ n ∧ n < 10 ^ (Nat.toDigits 10 n).length := by
  induction n using Nat.strong_induction_on with
  | _ n ih =>
    rw [toDigits_step]
    by_cases h : n < 10
    · rw [if_pos h]
      simp only [List.length_singleton, Nat.sub_self, pow_zero, pow_one]
      omega
    · rw [if_neg h]
      obtain ⟨b1, b2⟩ := ih (n / 10) (by omega) (by omega)
      have hp : 1 ≤ (Nat.toDigits 10 (n / 10)).length := by
        rw [toDigits_step]
        split <;> simp
      simp only [List.length_append, List.length_singleton, Nat.add_sub_cancel]
      constructor
      · have : (Nat.toDigits 10 (n / 10)).length =
            ((Nat.toDigits 10 (n / 10)).length - 1) + 1 := by omega
        rw [this, pow_succ]
        omega
      · rw [pow_succ]
        omega

/-- Appending zeros to the digits multiplies by a power of ten. -/
theorem toDigits_mul_pow (s : Nat) (hs : 0 < s) (z : Nat) :
    Nat.toDigits 10 (s * 10 ^ z) = Nat.toDigits 10 s ++ List.replicate z '0' := by
  induction z with
  | zero => simp
  | succ z ih =>
    rw [toDigits_step]
    have hpos : 0 < s * 10 ^ z := by positivity
    have hge : ¬ (s * 10 ^ (z + 1) < 10) := by
      rw [pow_succ, ← Nat.mul_assoc]
      omega
    rw [if_neg hge]
    have hd : s * 10 ^ (z + 1) / 10 = s * 10 ^ z := by
      rw [pow_succ, ← Nat.mul_assoc]
      omega
    have hm : s * 10 ^ (z + 1) % 10 = 0 := by
      rw [pow_succ, ← Nat.mul_assoc]
      omega
    rw [hd, hm, ih, List.append_assoc]
    congr 1
    rw [List.replicate_succ']
    rfl

/-- An integer whose rounding is the number of a positive integer below `2 ^ 53` is
that integer. -/
theorem roundScaled_int_inj (c n : Nat) (hn : 0 < n) (hlt : n < 2 ^ 53)
    (h : roundScaled false c 1 0 =
      Dbl.fin false (n * 2 ^ (53 - bitLength n)) ((bitLength n : Int) - 53)) : c = n := by
  have hln := bitLength_le_53 n hn hlt
  rcases Nat.eq_zero_or_pos c with hc0 | hc0
  · subst hc0
    have h0 : roundScaled false 0 1 0 = Dbl.fin false 0 0 := by
      unfold roundScaled
      simp
    rw [h0] at h
    injection h with _ hm _
    have : 0 < n * 2 ^ (53 - bitLength n) := by positivity
    omega
  by_cases hc : c < 2 ^ 53
  · rw [roundScaled_int false c hc0 hc] at h
    injection h with _ hm he
    have hl : bitLength c = bitLength n := by omega
    rw [hl] at hm
    exact Nat.eq_of_mul_eq_mul_right (by positivity) hm
  · rcases roundScaled_large false c (by omega) with hinf | ⟨m, t, hfin, ht⟩
    · rw [hinf] at h
      cases h
    · rw [hfin] at h
      injection h with _ _ he
      omega

/-- The first hit of a search over consecutive indices has a property that every hit
up to a known one has. -/
theorem findSome_range_first {α : Type} (f : Nat → Option α) (P : α → Prop) :
    ∀ (L s n : Nat), L < n → (∀ i, i < L → ∀ a, f (s + i) = some a → P a) →
      (∃ a, f (s + L) = some a ∧ P a) →
      ∃ a, (List.range' s n).findSome? f = some a ∧ P a := by
  intro L
  induction L with
  | zero =>
    intro s n hn _ h2
    obtain ⟨a, ha, hP⟩ := h2
    obtain ⟨n, rfl⟩ : ∃ n1, n = n1 + 1 := ⟨n - 1, by omega⟩
    rw [Nat.add_zero] at ha
    exact ⟨a, by rw [List.range'_succ, List.findSome?_cons, ha], hP⟩
  | succ L ih =>
    intro s n hn h1 h2
    obtain ⟨n, rfl⟩ : ∃ n1, n = n1 + 1 := ⟨n - 1, by omega⟩
    rw [List.range'_succ, List.findSome?_cons]
    cases hfs : f s with
    | some b => exact ⟨b, rfl, h1 0 (by omega) b (by rw [Nat.add_zero]; exact hfs)⟩
    | none =>
      apply ih (s + 1) n (by omega)
      · intro i hi a ha
        exact h1 (i + 1) (by omega) a (by rw [← ha]; congr 1; omega)
      · obtain ⟨a, ha, hP⟩ := h2
        exact ⟨a, by rw [← ha]; congr 1; omega, hP⟩

/-- The `k`-digit candidate for a positive integer `n` below `2 ^ 53` with `L` decimal
digits, `k ≤ L`: the leading `k` digits when the rest are zeros, none otherwise. -/
theorem shortestAt_int (n : Nat) (hn : 0 < n) (hlt : n < 2 ^ 53) (k : Nat)
    (hkL : k ≤ (Nat.toDigits 10 n).length) :
    shortestAt (n * 2 ^ (53 - bitLength n)) ((bitLength n : Int) - 53)
        ((Nat.toDigits 10 n).length : Int) k =
      if n % 10 ^ ((Nat.toDigits 10 n).length - k) = 0 then
        some (n / 10 ^ ((Nat.toDigits 10 n).length - k), ((Nat.toDigits 10 n).length : Int))
      else none := by
  have hln := bitLength_le_53 n hn hlt
  obtain ⟨d1, d2⟩ := toDigits_length_bounds n hn
  generalize hL : (Nat.toDigits 10 n).length = L at hkL d1 d2 ⊢
  generalize hD : 2 ^ (53 - bitLength n) = D
  have hDpos : 0 < D := by rw [← hD]; positivity
  generalize hP : 10 ^ (L - k) = P
  have hPpos : 0 < P := by rw [← hP]; positivity
  -- the scaled value
  have hquot : n * D / (D * P) = n / P := by
    rw [Nat.mul_comm n D]
    exact Nat.mul_div_mul_left n P hDpos
  have hrem : n * D % (D * P) = D * (n % P) := by
    rw [Nat.mul_comm n D]
    exact Nat.mul_mod_mul_left D n P
  have hf : scaleFrac10 (n * D) D ((k : Int) - (L : Int)) = (n * D, D * P) ∨
      (k = L ∧ scaleFrac10 (n * D) D ((k : Int) - (L : Int)) = (n * D * 1, D)) := by
    unfold scaleFrac10
    by_cases hs : (0 : Int) ≤ (k : Int) - (L : Int)
    · right
      have hkeq : k = L := by omega
      subst hkeq
      simp
    · left
      rw [if_neg hs]
      have : (-((k : Int) - (L : Int))).toNat = L - k := by omega
      rw [this, hP]
  have hg : ∀ c : Nat, scaleFrac10 c 1 ((L : Int) - (k : Int)) = (c * P, 1) := by
    intro c
    unfold scaleFrac10
    rw [if_pos (by omega)]
    have : ((L : Int) - (k : Int)).toNat = L - k := by omega
    rw [this, hP]
  have hlo10 : n / P < 10 ^ k := by
    rw [Nat.div_lt_iff_lt_mul hPpos, ← hP, ← pow_add]
    have : k + (L - k) = L := by omega
    rw [this]
    exact d2
  have hpick : (if n / P = 10 ^ k then some ((1 : Nat), (L : Int) + 1)
      else some (n / P, (L : Int))) = some (n / P, (L : Int)) := by
    rw [if_neg (by omega)]
  unfold shortestAt
  rw [← hD] at *
  rw [scaleFrac_ofInt n hln]
  simp only [hg]
  rcases hf with hf | ⟨hkeq, hf⟩
  · rw [hf]
    simp only [hquot, hrem]
    by_cases hr : n % P = 0
    · have hr0 : 2 ^ (53 - bitLength n) * (n % P) = 0 := by rw [hr]; rfl
      rw [if_pos hr0, if_pos hr, hpick]
    · have hr0 : ¬ (2 ^ (53 - bitLength n) * (n % P) = 0) := by
        intro hz
        rcases Nat.mul_eq_zero.mp hz with hz | hz
        · omega
        · exact hr hz
      rw [if_neg hr0, if_neg hr]
      have hoklo : decide (roundScaled false (n / P * P) 1 0 =
          Dbl.fin false (n * 2 ^ (53 - bitLength n)) ((bitLength n : Int) - 53)) = false := by
        rw [decide_eq_false_iff_not]
        intro hcon
        have := roundScaled_int_inj _ n hn hlt hcon
        have hdm := Nat.div_add_mod n P
        rw [Nat.mul_comm] at hdm
        omega
      have hokhi : decide (roundScaled false ((n / P + 1) * P) 1 0 =
          Dbl.fin false (n * 2 ^ (53 - bitLength n)) ((bitLength n : Int) - 53)) = false := by
        rw [decide_eq_false_iff_not]
        intro hcon
        have := roundScaled_int_inj _ n hn hlt hcon
        have hdm := Nat.div_add_mod n P
        have hml := Nat.mod_lt n hPpos
        rw [Nat.mul_comm] at hdm
        rw [Nat.add_mul] at this
        omega
      simp [hoklo, hokhi]
  · subst hkeq
    rw [hf]
    have hP1 : P = 1 := by rw [← hP]; simp
    subst hP1
    have e1 : n * 2 ^ (53 - bitLength n) * 1 / 2 ^ (53 - bitLength n) = n := by
      rw [Nat.mul_one]
      exact Nat.mul_div_cancel n hDpos
    have e2 : n * 2 ^ (53 - bitLength n) * 1 % 2 ^ (53 - bitLength n) = 0 := by
      rw [Nat.mul_one]
      exact Nat.mul_mod_left n _
    simp only [e1, e2]
    have hne : ¬ (n = 10 ^ k) := by omega
    rw [if_pos trivial, if_neg hne, Nat.mod_one, if_pos rfl, Nat.div_one]

/-- A `k`-digit candidate for `n` lays out as the digits of `n`. -/
theorem layoutDecimal_int (n : Nat) (hn : 0 < n) (hlt : n < 2 ^ 53) (k : Nat)
    (hdiv : n % 10 ^ ((Nat.toDigits 10 n).length - k) = 0) :
    layoutDecimal (n / 10 ^ ((Nat.toDigits 10 n).length - k))
      ((Nat.toDigits 10 n).length : Int) = n.repr := by
  obtain ⟨d1, d2⟩ := toDigits_length_bounds n hn
  have hL16 : (Nat.toDigits 10 n).length ≤ 16 := by
    by_contra hcon
    have : 10 ^ 16 ≤ 10 ^ ((Nat.toDigits 10 n).length - 1) :=
      Nat.pow_le_pow_right (by omega) (by omega)
    have h16 : (2 : Nat) ^ 53 < 10 ^ 16 := by norm_num
    omega
  have hmul : n / 10 ^ ((Nat.toDigits 10 n).length - k) *
      10 ^ ((Nat.toDigits 10 n).length - k) = n := by
    have hdm := Nat.div_add_mod n (10 ^ ((Nat.toDigits 10 n).length - k))
    rw [hdiv, Nat.add_zero, Nat.mul_comm] at hdm
    exact hdm
  have hspos : 0 < n / 10 ^ ((Nat.toDigits 10 n).length - k) := by
    rcases Nat.eq_zero_or_pos (n / 10 ^ ((Nat.toDigits 10 n).length - k)) with h0 | h0
    · rw [h0, Nat.zero_mul] at hmul
      omega
    · exact h0
  have hdig := toDigits_mul_pow _ hspos ((Nat.toDigits 10 n).length - k)
  rw [hmul] at hdig
  generalize hs : n / 10 ^ ((Nat.toDigits 10 n).length - k) = s at *
  generalize hL : (Nat.toDigits 10 n).length = L at *
  have hlen : (Nat.toDigits 10 s).length + (L - k) = L := by
    have := congrArg List.length hdig
    rw [List.length_append, List.length_replicate, hL] at this
    exact this.symm
  unfold layoutDecimal
  simp only []
  rw [if_pos (by constructor <;> omega)]
  have hz : ((L : Int) - ((Nat.toDigits 10 s).length : Int)).toNat = L - k := by omega
  rw [hz, ← hdig]
  rfl

/-- The text of a positive integer below `2 ^ 53` is its decimal numeral. -/
theorem toString_ofInt_pos (n : Nat) (hn : 0 < n) (hlt : n < 2 ^ 53) :
    (Dbl.ofInt (n : Int)).toString = n.repr := by
  have hln := bitLength_le_53 n hn hlt
  obtain ⟨d1, d2⟩ := toDigits_length_bounds n hn
  have hL16 : (Nat.toDigits 10 n).length ≤ 16 := by
    by_contra hcon
    have : 10 ^ 16 ≤ 10 ^ ((Nat.toDigits 10 n).length - 1) :=
      Nat.pow_le_pow_right (by omega) (by omega)
    have h16 : (2 : Nat) ^ 53 < 10 ^ 16 := by norm_num
    omega
  have hL1 : 1 ≤ (Nat.toDigits 10 n).length := by
    rw [toDigits_step]
    split <;> simp
  have hM : ¬ (n * 2 ^ (53 - bitLength n) = 0) := by
    have : 0 < n * 2 ^ (53 - bitLength n) := by positivity
    omega
  have hexp : decimalExponent (n * 2 ^ (53 - bitLength n)) (2 ^ (53 - bitLength n)) =
      ((Nat.toDigits 10 n).length : Int) := by
    unfold decimalExponent
    have hle : 2 ^ (53 - bitLength n) ≤ n * 2 ^ (53 - bitLength n) :=
      Nat.le_mul_of_pos_left _ hn
    rw [if_pos hle, Nat.mul_div_cancel n (by positivity)]
  obtain ⟨a, ha, hPa⟩ := findSome_range_first
    (fun i => shortestAt (n * 2 ^ (53 - bitLength n)) ((bitLength n : Int) - 53)
      ((Nat.toDigits 10 n).length : Int) (i + 1))
    (fun a => layoutDecimal a.1 a.2 = n.repr)
    ((Nat.toDigits 10 n).length - 1) 0 17 (by omega)
    (by
      intro i hi a ha
      simp only [Nat.zero_add] at ha
      rw [shortestAt_int n hn hlt (i + 1) (by omega)] at ha
      split at ha
      · rename_i hdiv
        injection ha with ha
        rw [← ha]
        exact layoutDecimal_int n hn hlt (i + 1) hdiv
      · cases ha)
    (by
      refine ⟨(n, ((Nat.toDigits 10 n).length : Int)), ?_, ?_⟩
      · simp only [Nat.zero_add]
        have hk : (Nat.toDigits 10 n).length - 1 + 1 = (Nat.toDigits 10 n).length := by omega
        rw [hk, shortestAt_int n hn hlt _ (le_refl _)]
        rw [Nat.sub_self, pow_zero, Nat.mod_one, if_pos rfl, Nat.div_one]
      · have := layoutDecimal_int n hn hlt (Nat.toDigits 10 n).length
          (by rw [Nat.sub_self, pow_zero, Nat.mod_one])
        rw [Nat.sub_self, pow_zero, Nat.div_one] at this
        exact this)
  rw [ofInt_natCast n hn hlt]
  unfold Dbl.toString
  simp only [hM, if_false]
  unfold shortestDecimal
  rw [scaleFrac_ofInt n hln]
  simp only [hexp]
  rw [List.range_eq_range', ha]
  simp only [Bool.false_eq_true, if_false]
  rw [hPa]
  simp

/-- The text of a negative integer above `-2 ^ 53` is a minus sign and the numeral. -/
theorem toString_ofInt_neg (n : Nat) (hn : 0 < n) (hlt : n < 2 ^ 53) :
    (Dbl.ofInt (-(n : Int))).toString = "-" ++ n.repr := by
  have h := toString_ofInt_pos n hn hlt
  rw [ofInt_natCast n hn hlt] at h
  rw [ofInt_neg_natCast n hn hlt]
  have hM : ¬ (n * 2 ^ (53 - bitLength n) = 0) := by
    have : 0 < n * 2 ^ (53 - bitLength n) := by positivity
    omega
  unfold Dbl.toString at h ⊢
  simp only [hM, if_false, Bool.false_eq_true] at h ⊢
  simp only [if_true]
  congr 1

/-- The text of an integer of magnitude below `2 ^ 53` is its decimal numeral. -/
theorem toString_ofInt (z : Int) (hz : |z| < 2 ^ 53) :
    (Dbl.ofInt z).toString = numberToString z := by
  rcases lt_trichotomy z 0 with hneg | hzero | hpos
  · obtain ⟨n, hn⟩ : ∃ n : Nat, z = -(n : Int) := ⟨z.natAbs, by omega⟩
    subst hn
    have hn0 : 0 < n := by omega
    have hlt : n < 2 ^ 53 := by
      rw [abs_neg, Nat.abs_cast] at hz
      exact_mod_cast hz
    rw [toString_ofInt_neg n hn0 hlt]
    obtain ⟨p, rfl⟩ : ∃ p, n = p + 1 := ⟨n - 1, by omega⟩
    rfl
  · subst hzero
    decide
  · obtain ⟨n, hn⟩ : ∃ n : Nat, z = (n : Int) := ⟨z.natAbs, by omega⟩
    subst hn
    have hn0 : 0 < n := by omega
    have hlt : n < 2 ^ 53 := by
      rw [Nat.abs_cast] at hz
      exact_mod_cast hz
    rw [toString_ofInt_pos n hn0 hlt]
    rfl

/-! ### The binary64 formatter on integers below `2 ^ 53` -/

theorem toString_ofInt_nat (n : Nat) (hlt : n < 2 ^ 53) :
    (Dbl.ofInt (n : Int)).toString = n.repr := by
  rcases Nat.eq_zero_or_pos n with h0 | h0
  · subst h0
    decide
  · exact toString_ofInt_pos n h0 hlt

theorem leftPadDouble_div (a b : Nat) (ha : a < 2 ^ 53) (hb0 : 0 < b) (hb : b < 2 ^ 53) :
    leftPadDouble ((Dbl.ofInt (a : Int)).div (Dbl.ofInt (b : Int))) = specPad (a / b) := by
  unfold leftPadDouble
  have hq : a / b < 2 ^ 53 := lt_of_le_of_lt (Nat.div_le_self a b) ha
  rw [floor_div_ofInt a b ha hb0 hb, toString_ofInt_nat (a / b) hq]
  exact padStart_repr (a / b)

/-- On an integer of magnitude below `2 ^ 53` the binary64 formatter returns what
exact integer arithmetic returns. -/
theorem formatTimerDouble_eq_spec (ms : Int) (hms : |ms| < 2 ^ 53) :
    formatTimerDouble (Dbl.ofInt ms) = formatTimerSpec ms := by
  have hA : ms.natAbs < 2 ^ 53 := by
    have h1 : ((ms.natAbs : Nat) : Int) < 2 ^ 53 := by
      rw [← Int.abs_eq_natAbs]
      exact hms
    exact_mod_cast h1
  have hmth : mth = ((3600000 : Nat) : Int) := by decide
  have hmtm : mtm = ((60000 : Nat) : Int) := by decide
  have hmts : mts = ((1000 : Nat) : Int) := by decide
  have hle1 := le_ofInt ms 1000 hms (by norm_num)
  have hle2 := le_ofInt (-1000) ms (by norm_num) hms
  have hlt0 := lt_ofInt ms 0 hms (by norm_num)
  unfold formatTimerDouble formatTimerSpec
  simp only []
  rw [hle1, hle2, hlt0]
  by_cases h : -1000 ≤ ms ∧ ms ≤ 1000
  · have hc : (decide (ms ≤ 1000) && decide (-1000 ≤ ms)) = true := by
      simp [h.1, h.2]
    rw [if_pos hc, if_pos h]
    exact toString_ofInt ms hms
  · have hc : ¬ ((decide (ms ≤ 1000) && decide (-1000 ≤ ms)) = true) := by
      simp only [Bool.and_eq_true, decide_eq_true_eq]
      intro hh
      exact h ⟨hh.2, hh.1⟩
    rw [if_neg hc, if_neg h, abs_ofInt ms hms, hmth, hmtm, hmts]
    have hr1 : ms.natAbs % 3600000 < 2 ^ 53 := lt_of_le_of_lt (Nat.mod_le _ _) hA
    have hr2 : ms.natAbs % 60000 < 2 ^ 53 := lt_of_le_of_lt (Nat.mod_le _ _) hA
    rw [mod_ofInt ms.natAbs 3600000 hA (by norm_num) (by norm_num),
      mod_ofInt ms.natAbs 60000 hA (by norm_num) (by norm_num),
      leftPadDouble_div ms.natAbs 3600000 hA (by norm_num) (by norm_num),
      leftPadDouble_div (ms.natAbs % 3600000) 60000 hr1 (by norm_num) (by norm_num),
      leftPadDouble_div (ms.natAbs % 60000) 1000 hr2 (by norm_num) (by norm_num)]
    by_cases hneg : ms < 0
    · simp [hneg]
    · simp [hneg]

/-- Below `2 ^ 53` in magnitude, the exact-integer model `formatTimer` is the binary64
function. -/
theorem formatTimerDouble_eq_formatTimer (ms : Int) (hms : |ms| < 2 ^ 53) :
    formatTimerDouble (Dbl.ofInt ms) = formatTimer ms := by
  rw [formatTimerDouble_eq_spec ms hms, formatTimer_eq_spec]

set_option maxRecDepth 100000 in
/-- Beyond `2 ^ 53` a field can be printed in exponent notation: at the binary64 number
`35999999999999999378840354816` (the JSON number `3.6e28`) the hours are `1e+22`. -/
theorem formatTimerDouble_exponent_hours :
    formatTimerDouble (Dbl.ofInt 35999999999999999378840354816) = "1e+22:39:14" := by
  decide

/-! ### Formatter: specified behaviour -/

/-- C1, counterexample.  The integer `3543854669945999872` is a binary64 number
(`6921591152238281 * 2 ^ 9`), and on it the function returns `984404074985:59:59`:
the quotient by the hour constant rounds up to the next integer, so the hours field
is one more than the truncated quotient `984404074984` of the reference definition. -/
theorem formatTimer_rounds_up_hours :
    (6921591152238281 * 2 ^ 9 : Int) = 3543854669945999872 ∧
      Dbl.ofInt 3543854669945999872 = Dbl.fin false 6921591152238281 9 ∧
      formatTimerDouble (Dbl.ofInt 3543854669945999872) = "984404074985:59:59" ∧
      formatTimerSpec 3543854669945999872 = "984404074984:59:59" ∧
      formatTimerDouble (Dbl.ofInt 3543854669945999872) ≠
        formatTimerSpec 3543854669945999872 := by
  decide

/-- C1, amended.  For every integer `ms` with `|ms| < 2 ^ 53`, `formatTimer(ms)`, computed
in binary64 as the script computes it, equals the reference definition: the plain
decimal rendering inside `[-1000, 1000]`, and otherwise the sign followed by the
hours, minutes and seconds obtained by truncating integer division of `|ms|`, each
left-padded with `0` to two characters at least; in particular the function gives
`"500"` at `500`, `"-900"` at `-900`, `"1000"` at `1000`, `"01:02:03"` at `3723000`
and `"-01:02:03"` at `-3723000`. -/
theorem formatTimerDouble_refines_reference :
    (∀ ms : Int, |ms| < 2 ^ 53 → formatTimerDouble (Dbl.ofInt ms) = formatTimerSpec ms) ∧
      formatTimerDouble (Dbl.ofInt 500) = "500" ∧
      formatTimerDouble (Dbl.ofInt (-900)) = "-900" ∧
      formatTimerDouble (Dbl.ofInt 1000) = "1000" ∧
      formatTimerDouble (Dbl.ofInt 3723000) = "01:02:03" ∧
      formatTimerDouble (Dbl.ofInt (-3723000)) = "-01:02:03" := by
  refine ⟨formatTimerDouble_eq_spec, ?_, ?_, ?_, ?_, ?_⟩ <;> decide

/-- C1, witness: the refinement at one hour, two minutes, three seconds. -/
theorem formatTimerDouble_refines_reference_witness :
    |(3723000 : Int)| < 2 ^ 53 ∧
      formatTimerDouble (Dbl.ofInt 3723000) = formatTimerSpec 3723000 :=
  ⟨by norm_num, formatTimerDouble_refines_reference.1 3723000 (by norm_num)⟩

/-- C2, counterexample.  One hundred hours are rendered with a three-digit hours
field: the result has nine characters although the value is positive. -/
theorem formatTimer_hundred_hours :
    (360000000 : Int) > 1000 ∧ formatTimer 360000000 = "100:00:00" ∧
      (formatTimer 360000000).length ≠ 8 ∧
      formatTimerDouble (Dbl.ofInt 360000000) = "100:00:00" ∧
      (formatTimerDouble (Dbl.ofInt 360000000)).length ≠ 8 := by
  refine ⟨by decide, ?_, ?_, ?_, ?_⟩
  · rw [formatTimer_eq_spec]; decide
  · rw [formatTimer_eq_spec]; decide
  · decide
  · decide

/-- C2, amended.  For every integer `ms` outside `[-1000, 1000]` with `|ms| < 2 ^ 53`,
`formatTimer(ms)`, computed in binary64 as the script computes it, is a leading `-`
exactly when `ms` is negative, followed by three fields of decimal digits separated
by `:`; minutes and seconds have exactly two digits, the hours have at least two,
and exactly two precisely when `|ms| < 360000000`; so below one hundred hours the
result has 8 characters for a positive and 9 for a negative value, and from one
hundred hours on it is longer. -/
theorem formatTimerDouble_shape (ms : Int) (hb : |ms| < 2 ^ 53)
    (h : ms > 1000 ∨ ms < -1000) :
    ∃ hh mm ss : List Char,
      (formatTimerDouble (Dbl.ofInt ms)).data =
        (if ms < 0 then ['-'] else []) ++ hh ++ ':' :: mm ++ ':' :: ss ∧
      (∀ c ∈ hh ++ mm ++ ss, c.isDigit = true) ∧
      mm.length = 2 ∧ ss.length = 2 ∧ 2 ≤ hh.length ∧
      (hh.length = 2 ↔ ms.natAbs < 360000000) ∧
      (formatTimerDouble (Dbl.ofInt ms)).length =
        (if ms < 0 then 1 else 0) + hh.length + 6 := by
  rw [formatTimerDouble_eq_formatTimer ms hb]
  obtain ⟨pre, h1, h2, m1, m2, s1, s2, hd, hpre, hh1, hh2, hm1, hm2, hs1, hs2, hp⟩ :=
    formatTimer_fields ms h
  refine ⟨pre ++ [h1, h2], [m1, m2], [s1, s2], ?_, ?_, rfl, rfl, ?_, ?_, ?_⟩
  · rw [hd]; simp
  · intro c hc
    simp only [List.mem_append, List.mem_cons, List.mem_singleton, List.not_mem_nil,
      or_false] at hc
    rcases hc with ((hc | hc | hc) | hc | hc) | hc | hc
    · exact hpre c hc
    all_goals (subst hc; assumption)
  · simp
  · rw [← hp]
    simp [List.length_eq_zero]
  · rw [String.length, hd]
    split <;> simp
    omega

/-- C2, witness: the shape of the rendering of one hour, two minutes, three seconds. -/
theorem formatTimerDouble_shape_witness :
    ∃ hh mm ss : List Char,
      (formatTimerDouble (Dbl.ofInt 3723000)).data =
        (if (3723000 : Int) < 0 then ['-'] else []) ++ hh ++ ':' :: mm ++ ':' :: ss ∧
      (∀ c ∈ hh ++ mm ++ ss, c.isDigit = true) ∧
      mm.length = 2 ∧ ss.length = 2 ∧ 2 ≤ hh.length ∧
      (hh.length = 2 ↔ (3723000 : Int).natAbs < 360000000) ∧
      (formatTimerDouble (Dbl.ofInt 3723000)).length =
        (if (3723000 : Int) < 0 then 1 else 0) + hh.length + 6 :=
  formatTimerDouble_shape 3723000 (by norm_num) (Or.inl (by decide))

/-! ### DOM projector: specified behaviour -/

theorem foldl_overwrite {α β : Type} (p : β → Bool) (a : α) (l : List β) : ∀ b : α,
    l.foldl (fun value k => if p k then a else value) b = if l.any p then a else b := by
  induction l with
  | nil => intro b; rfl
  | cons k ks ih =>
    intro b
    rw [List.foldl_cons, ih]
    by_cases hk : p k = true
    · simp [hk]
    · have hk2 : p k = false := by simpa using hk
      simp [hk2]

theorem writeElement_num (field : String) (n : Int) (el : Element) :
    writeElement field (JVal.num n) el =
      { el with innerText :=
        if timeKeys.any (fun k => includes field k) then formatTimer n
        else numberToString n } := by
  unfold writeElement
  simp only
  rw [foldl_overwrite (fun k => includes field k) (formatTimer n) timeKeys (numberToString n)]

theorem writeElement_num_fun (field : String) (n : Int) :
    writeElement field (JVal.num n) = fun el =>
      { el with innerText :=
          if timeKeys.any (fun k => includes field k) then formatTimer n
          else numberToString n } := by
  funext el
  exact writeElement_num field n el

theorem writeElement_other (field : String) (v : JVal) (hb : ∀ b, v ≠ JVal.bool b)
    (hn : ∀ n, v ≠ JVal.num n) (el : Element) :
    writeElement field v el =
      if includes field "colour" then
        { el with style := setProperty el.style ("--" ++ field) (domString v) }
      else if includes field "custom" then
        { el with innerText := (jsonStringify v).getD "undefined" }
      else { el with innerText := domString v } := by
  cases v with
  | bool b => exact absurd rfl (hb b)
  | num n => exact absurd rfl (hn n)
  | undefined => rfl
  | null => rfl
  | str s => rfl
  | arr xs => rfl
  | obj kvs => rfl

theorem stamp_write_other (host : Host) (fieldKey : String) (v : JVal) (d : Dom)
    (hb : ∀ b, v ≠ JVal.bool b) (hn : ∀ n, v ≠ JVal.num n) :
    stampTimestamp host (d.modify fieldKey (writeElement fieldKey v)) =
      if includes fieldKey "colour" then
        stampTimestamp host (d.modify fieldKey (fun el =>
          { el with style := setProperty el.style ("--" ++ fieldKey) (domString v) }))
      else if includes fieldKey "custom" then
        stampTimestamp host (d.setText fieldKey ((jsonStringify v).getD "undefined"))
      else stampTimestamp host (d.setText fieldKey (domString v)) := by
  have hw : writeElement fieldKey v = fun el =>
      if includes fieldKey "colour" then
        { el with style := setProperty el.style ("--" ++ fieldKey) (domString v) }
      else if includes fieldKey "custom" then
        { el with innerText := (jsonStringify v).getD "undefined" }
      else { el with innerText := domString v } := by
    funext el
    exact writeElement_other fieldKey v hb hn el
  rw [hw]
  by_cases hc : includes fieldKey "colour" = true
  · simp only [hc, if_true]
  · by_cases hu : includes fieldKey "custom" = true
    · simp only [hc, hu, if_true, if_false, Bool.false_eq_true, Dom.setText]
    · simp only [hc, hu, if_false, Bool.false_eq_true, Dom.setText]

/-- C3.  `updateDOM fieldKey value` equals the reference projection: without an
element named `fieldKey` the page is unchanged (the `timestamp` element is not
written either); otherwise the first matching rule is applied to that element —
a boolean sets its checked state; a number sets its text to `formatTimer value` when
`fieldKey` contains one of `clock`, `time`, `duration`, `delay`, `gap`, `startedAt`
and to the plain rendering otherwise, whatever else the key contains; a key
containing `colour` sets the custom property `--fieldKey` and leaves the text; a
key containing `custom` sets the text to the pretty-printed JSON; any other key sets
the text to the value — and the update is stamped in the `timestamp` element. -/
theorem updateDOM_refines_reference :
    (∀ (host : Host) (fieldKey : String) (value : JVal) (d : Dom),
      updateDOM host fieldKey value d = updateDOMSpec host fieldKey value d) ∧
    (∀ (host : Host) (fieldKey : String) (value : JVal) (d : Dom),
      getElementById d fieldKey = none → updateDOM host fieldKey value d = d) := by
  constructor
  · intro host fieldKey value d
    unfold updateDOM updateDOMSpec
    cases hg : getElementById d fieldKey with
    | none => simp
    | some el =>
      simp only [Option.isNone_some, Bool.false_eq_true, if_false]
      cases value with
      | bool b => rfl
      | num n =>
        rw [writeElement_num_fun]
        simp only
        split <;> rfl
      | undefined => exact stamp_write_other host fieldKey _ d (by simp) (by simp)
      | null => exact stamp_write_other host fieldKey _ d (by simp) (by simp)
      | str s => exact stamp_write_other host fieldKey _ d (by simp) (by simp)
      | arr xs => exact stamp_write_other host fieldKey _ d (by simp) (by simp)
      | obj kvs => exact stamp_write_other host fieldKey _ d (by simp) (by simp)
  · intro host fieldKey value d hg
    unfold updateDOM
    rw [hg]

/-! ### Clearer: specified behaviour -/

theorem length_modifyFirst (id : String) (f : Element → Element) (l : List Element) :
    (modifyFirst id f l).length = l.length := by
  induction l with
  | nil => rfl
  | cons e es ih =>
    unfold modifyFirst
    split
    · rfl
    · simp [ih]

theorem getElem?_modifyFirst_proj {β : Type} (proj : Element → β) (id : String)
    (f : Element → Element) (hproj : ∀ e, proj (f e) = proj e) (l : List Element) :
    ∀ i : Nat, ((modifyFirst id f l)[i]?).map proj = (l[i]?).map proj := by
  induction l with
  | nil => intro i; rfl
  | cons e es ih =>
    intro i
    unfold modifyFirst
    split
    · cases i with
      | zero => simp [hproj]
      | succ j => simp
    · cases i with
      | zero => simp
      | succ j => simpa using ih j

theorem length_clearIDs (clearID : String) (d : Dom) :
    (clearIDs clearID d).elements.length = d.elements.length := by
  unfold clearIDs
  simp only
  split
  · rw [length_modifyFirst]; simp
  · simp

/-- What the clearer does to the element at each position, seen through any
observation that ignores the style. -/
theorem clearIDs_getElem? {β : Type} (proj : Element → β)
    (hproj : ∀ (e : Element) (s : List (String × String)), proj { e with style := s } = proj e)
    (clearID : String) (d : Dom) (i : Nat) :
    ((clearIDs clearID d).elements[i]?).map proj =
      (d.elements[i]?).map (fun element =>
        proj { element with
          innerText :=
            if idStartsWith element.id clearID then
              (if hasTimePattern element.innerText then "--:--:--" else "")
            else element.innerText
          checked :=
            if element.isCheckbox && idStartsWith element.id clearID then false
            else element.checked }) := by
  unfold clearIDs
  simp only
  have key : ∀ l : List Element,
      ((List.map (fun element : Element =>
          if (element.isCheckbox && idStartsWith element.id clearID) = true then
            { element with checked := false }
          else element)
        (List.map (fun element : Element =>
          if idStartsWith element.id clearID = true then
            { element with
              innerText := if hasTimePattern element.innerText = true then "--:--:--" else "" }
          else element) l))[i]?).map proj =
      (l[i]?).map (fun element =>
        proj { element with
          innerText :=
            if idStartsWith element.id clearID then
              (if hasTimePattern element.innerText then "--:--:--" else "")
            else element.innerText
          checked :=
            if element.isCheckbox && idStartsWith element.id clearID then false
            else element.checked }) := by
    intro l
    simp only [List.getElem?_map, Option.map_map]
    congr 1
    funext element
    obtain ⟨eid, ecb, etext, echk, esty⟩ := element
    simp only [Function.comp]
    by_cases h1 : idStartsWith eid clearID = true
    · cases ecb <;> simp [h1]
    · cases ecb <;> simp [h1]
  split
  · rw [getElem?_modifyFirst_proj proj _ _ (fun e => hproj e _)]
    exact key d.elements
  · exact key d.elements

theorem clearIDs_at (clearID : String) (d : Dom) (i : Nat) (el : Element)
    (h : d.elements[i]? = some el) :
    ∃ el', (clearIDs clearID d).elements[i]? = some el' ∧ el'.id = el.id ∧
      el'.innerText =
        (if idStartsWith el.id clearID then
          (if hasTimePattern el.innerText then "--:--:--" else "")
        else el.innerText) ∧
      el'.checked =
        (if el.isCheckbox && idStartsWith el.id clearID then false else el.checked) := by
  have hk := clearIDs_getElem? (fun e => (e.id, e.innerText, e.checked)) (fun _ _ => rfl)
    clearID d i
  rw [h] at hk
  cases hc : (clearIDs clearID d).elements[i]? with
  | none => rw [hc] at hk; simp at hk
  | some el' =>
    rw [hc] at hk
    simp only [Option.map_some', Option.some.injEq, Prod.mk.injEq] at hk
    exact ⟨el', rfl, hk.1, hk.2.1, hk.2.2⟩

theorem onmessage_clock (host : Host) (payload : JVal) (d : Dom) :
    onmessage host (message "ontime-clock" payload) d = caseClock host payload d := by
  rfl

/-- C7.  Dispatching `{type: "ontime-clock", payload: null}` applies
`clearIDs "clock"`: every element whose identifier starts with `clock` (as
`clock-clock` does) gets the text `--:--:--` if its text held a time-formatted string
and the empty text otherwise; every checkbox whose identifier starts with `clock`
becomes unchecked; text and checked state of all other elements are unchanged. -/
theorem clock_null_clears (host : Host) (d : Dom) :
    onmessage host (message "ontime-clock" JVal.null) d = Outcome.done (clearIDs "clock" d) ∧
    idStartsWith "clock-clock" "clock" = true ∧
    (clearIDs "clock" d).elements.length = d.elements.length ∧
    ∀ (i : Nat) (el : Element), d.elements[i]? = some el →
      ∃ el', (clearIDs "clock" d).elements[i]? = some el' ∧ el'.id = el.id ∧
        el'.innerText =
          (if idStartsWith el.id "clock" then
            (if hasTimePattern el.innerText then "--:--:--" else "")
          else el.innerText) ∧
        el'.checked =
          (if el.isCheckbox && idStartsWith el.id "clock" then false else el.checked) := by
  refine ⟨?_, by decide, length_clearIDs "clock" d, fun i el h => clearIDs_at "clock" d i el h⟩
  rw [onmessage_clock]
  rfl

/-- C9.  For every integer `ms`, `formatTimer ms` contains the time pattern of the
clearer exactly when `ms > 1000` or `ms < -1000`; so `clearIDs` turns an element
under its prefix whose text is `formatTimer ms` into the placeholder `--:--:--`
exactly when the value was rendered as `HH:MM:SS` (negative values and hours of
three digits included), and into the empty text when it was rendered as a plain
number. -/
theorem cleared_timer_text (ms : Int) :
    (hasTimePattern (formatTimer ms) = true ↔ (ms > 1000 ∨ ms < -1000)) ∧
    (∀ (clearID : String) (d : Dom) (i : Nat) (el : Element),
      d.elements[i]? = some el → idStartsWith el.id clearID = true →
      el.innerText = formatTimer ms →
      ∃ el', (clearIDs clearID d).elements[i]? = some el' ∧
        el'.innerText = if ms > 1000 ∨ ms < -1000 then "--:--:--" else "") ∧
    hasTimePattern (formatTimer (-3723000)) = true ∧
    hasTimePattern (formatTimer 360000000) = true := by
  refine ⟨hasTimePattern_formatTimer ms, ?_, ?_, ?_⟩
  · intro clearID d i el hel hpre htext
    obtain ⟨el', h1, _, h3, _⟩ := clearIDs_at clearID d i el hel
    refine ⟨el', h1, ?_⟩
    rw [h3, if_pos hpre, htext]
    by_cases hms : ms > 1000 ∨ ms < -1000
    · rw [if_pos ((hasTimePattern_formatTimer ms).2 hms), if_pos hms]
    · have hn : ¬ hasTimePattern (formatTimer ms) = true :=
        fun hp => hms ((hasTimePattern_formatTimer ms).1 hp)
      rw [if_neg hn, if_neg hms]
  · exact (hasTimePattern_formatTimer _).2 (Or.inr (by decide))
  · exact (hasTimePattern_formatTimer _).2 (Or.inl (by decide))

/-! ### Category prefixes that contain `time` -/

theorem timeKeys_any_of_time (field : String) (h : includes field "time" = true) :
    timeKeys.any (fun k => includes field k) = true := by
  simp [timeKeys, h]

theorem timer_category (f : String) :
    includes ("timer-" ++ f) "time" = true ∧ "timer-" ++ f ≠ "timestamp" := by
  constructor
  · show occursIn ['t', 'i', 'm', 'e'] ('t' :: 'i' :: 'm' :: 'e' :: 'r' :: '-' :: f.data) = true
    simp [occursIn, List.isPrefixOf]
  · intro h
    have h5 : ('t' :: 'i' :: 'm' :: 'e' :: 'r' :: '-' :: f.data) =
        ['t', 'i', 'm', 'e', 's', 't', 'a', 'm', 'p'] := congrArg String.data h
    simp at h5

theorem runtime_category (f : String) :
    includes ("runtime-" ++ f) "time" = true ∧ "runtime-" ++ f ≠ "timestamp" := by
  constructor
  · show occursIn ['t', 'i', 'm', 'e']
      ('r' :: 'u' :: 'n' :: 't' :: 'i' :: 'm' :: 'e' :: '-' :: f.data) = true
    simp [occursIn, List.isPrefixOf]
  · intro h
    have h5 : ('r' :: 'u' :: 'n' :: 't' :: 'i' :: 'm' :: 'e' :: '-' :: f.data) =
        ['t', 'i', 'm', 'e', 's', 't', 'a', 'm', 'p'] := congrArg String.data h
    simp at h5

theorem auxtimer1_category (f : String) :
    includes ("auxtimer1-" ++ f) "time" = true ∧ "auxtimer1-" ++ f ≠ "timestamp" := by
  constructor
  · show occursIn ['t', 'i', 'm', 'e']
      ('a' :: 'u' :: 'x' :: 't' :: 'i' :: 'm' :: 'e' :: 'r' :: '1' :: '-' :: f.data) = true
    simp [occursIn, List.isPrefixOf]
  · intro h
    have h5 : ('a' :: 'u' :: 'x' :: 't' :: 'i' :: 'm' :: 'e' :: 'r' :: '1' :: '-' :: f.data) =
        ['t', 'i', 'm', 'e', 's', 't', 'a', 'm', 'p'] := congrArg String.data h
    simp at h5

/-- A number written under a field whose name contains `time` is shown formatted. -/
theorem updateDOM_time_number (host : Host) (field : String) (v : Int) (d : Dom)
    (ht : includes field "time" = true) (hs : field ≠ "timestamp") :
    updateDOM host field (JVal.num v) d =
      (if (getElementById d field).isSome then
        stampTimestamp host (d.setText field (formatTimer v))
      else d) ∧
    ∀ el, getElementById d field = some el →
      ∃ el', getElementById (updateDOM host field (JVal.num v) d) field = some el' ∧
        el'.innerText = formatTimer v := by
  constructor
  · unfold updateDOM
    cases hg : getElementById d field with
    | none => rfl
    | some el =>
      simp only [Option.isSome_some, if_true]
      rw [writeElement_num_fun, timeKeys_any_of_time field ht]
      rfl
  · intro el hel
    rw [getElementById_updateDOM host field (JVal.num v) d field hs, if_pos rfl, hel,
      writeElement_num_fun, timeKeys_any_of_time field ht]
    exact ⟨_, rfl, rfl⟩

theorem onmessage_runtime (host : Host) (payload : JVal) (d : Dom) :
    onmessage host (message "ontime-runtime" payload) d =
      clearOrProject host "runtime" payload d := by
  rfl

/-- C10.  For every field name `f` and every number `v`, projecting under the
prefixes `timer-`, `runtime-` and `auxtimer1-` renders `formatTimer v`, because each
prefix contains `time`: the update sets the text of the element to `formatTimer v`,
so the plain-number branch is never taken for these categories; a count field
`runtime-numEvents` with value 1500 is shown as `00:00:01`. -/
theorem time_categories_always_format (host : Host) (f : String) (v : Int) (d : Dom) :
    (∀ pre ∈ ["timer-", "runtime-", "auxtimer1-"],
      includes (pre ++ f) "time" = true ∧
      updateDOM host (pre ++ f) (JVal.num v) d =
        (if (getElementById d (pre ++ f)).isSome then
          stampTimestamp host (d.setText (pre ++ f) (formatTimer v))
        else d) ∧
      ∀ el, getElementById d (pre ++ f) = some el →
        ∃ el', getElementById (updateDOM host (pre ++ f) (JVal.num v) d) (pre ++ f) = some el' ∧
          el'.innerText = formatTimer v) ∧
    formatTimer 1500 = "00:00:01" ∧
    (∀ el, getElementById d "runtime-numEvents" = some el →
      ∃ el', getElementById
          (onmessage host
            (message "ontime-runtime" (JVal.obj [("numEvents", JVal.num 1500)])) d).dom
          "runtime-numEvents" = some el' ∧
        el'.innerText = "00:00:01") := by
  have h1500 : formatTimer 1500 = "00:00:01" := by rw [formatTimer_eq_spec]; decide
  refine ⟨?_, h1500, ?_⟩
  · intro pre hpre
    simp only [List.mem_cons, List.mem_singleton, List.not_mem_nil, or_false] at hpre
    rcases hpre with h | h | h
    · subst h
      exact ⟨(timer_category f).1,
        updateDOM_time_number host _ v d (timer_category f).1 (timer_category f).2⟩
    · subst h
      exact ⟨(runtime_category f).1,
        updateDOM_time_number host _ v d (runtime_category f).1 (runtime_category f).2⟩
    · subst h
      exact ⟨(auxtimer1_category f).1,
        updateDOM_time_number host _ v d (auxtimer1_category f).1 (auxtimer1_category f).2⟩
  · intro el hel
    rw [onmessage_runtime]
    have hp := runtime_category "numEvents"
    have hu := (updateDOM_time_number host ("runtime-" ++ "numEvents") 1500 d hp.1 hp.2).2 el hel
    rw [h1500] at hu
    exact hu

/-! ### Message dispatcher: specified behaviour -/

theorem onmessage_eventNow (host : Host) (payload : JVal) (d : Dom) :
    onmessage host (message "ontime-eventNow" payload) d = caseEventNow host payload d := by
  rfl

theorem onmessage_timer (host : Host) (payload : JVal) (d : Dom) :
    onmessage host (message "ontime-timer" payload) d = caseTimer host payload d := by
  rfl

theorem percent_ne_empty (host : Host) (x y : JVal) : percent host x y ≠ "" := by
  intro h
  have := congrArg String.data h
  unfold percent at this
  rw [String.data_append] at this
  have h2 := congrArg List.length this
  simp at h2

theorem percent_num (host : Host) (a b : Int) :
    percent host (JVal.num a) (JVal.num b) =
      (((Dbl.ofInt a).div (Dbl.ofInt b)).mul (Dbl.ofInt 100)).toString ++ "%" := rfl

theorem field_obj (kvs : List (String × JVal)) (k : String) (v : JVal)
    (h : kvs.lookup k = some v) : field (JVal.obj kvs) k = v := by
  unfold field getProp
  simp [h]

theorem getElementById_congr (d d' : Dom) (h : d'.elements = d.elements) (id : String) :
    getElementById d' id = getElementById d id := by
  unfold getElementById
  rw [h]

theorem getElementById_setRootProperty (d : Dom) (name value id : String) :
    getElementById (d.setRootProperty name value) id = getElementById d id :=
  getElementById_congr d _ rfl id

/-- The two thresholds after `progressBar`: the warning share in `--barStart`, the
danger share in `--barEnd`. -/
theorem progressBar_properties (host : Host) (event : JVal) (d : Dom) :
    getProperty (progressBar host event d).rootStyle "--barStart" =
        some (percent host (field event "timeWarning") (field event "duration")) ∧
      getProperty (progressBar host event d).rootStyle "--barEnd" =
        some (percent host (field event "timeDanger") (field event "duration")) ∧
      (progressBar host event d).elements = d.elements := by
  unfold progressBar Dom.setRootProperty
  refine ⟨?_, ?_, rfl⟩
  · simp only
    rw [getProperty_setProperty_other _ _ _ _ (by decide),
      getProperty_setProperty_self _ _ _ (percent_ne_empty _ _ _)]
  · simp only
    rw [getProperty_setProperty_self _ _ _ (percent_ne_empty _ _ _)]

theorem caseEventNow_obj (host : Host) (kvs : List (String × JVal)) (d : Dom) :
    caseEventNow host (JVal.obj kvs) d =
      Outcome.done (progressBar host (JVal.obj kvs) (projectEntries host "eventNow-" kvs d)) := by
  rfl

set_option maxRecDepth 100000 in
theorem percent_examples :
    (((Dbl.ofInt 300).div (Dbl.ofInt 1000)).mul (Dbl.ofInt 100)).toString ++ "%" = "30%" ∧
      (((Dbl.ofInt 100).div (Dbl.ofInt 1000)).mul (Dbl.ofInt 100)).toString ++ "%" = "10%" ∧
      (((Dbl.ofInt 5000).div (Dbl.ofInt 10000)).mul (Dbl.ofInt 100)).toString ++ "%" = "50%" := by
  decide

/-- C4.  For every `ontime-eventNow` message whose payload is an object with integer
`duration`, `timeWarning` and `timeDanger`, the handler projects every payload field
under the prefix `eventNow-` and then sets `--barStart` to the rendering of
`(timeWarning / duration) * 100` followed by `%` and `--barEnd` to that of
`(timeDanger / duration) * 100` followed by `%` (binary64 arithmetic and rendering):
the warning feeds the start, the danger feeds the end.  For the payload
`{duration: 1000, timeWarning: 300, timeDanger: 100, title: "Intro"}` this gives
`--barStart = "30%"`, `--barEnd = "10%"` and the text `Intro` in the element
`eventNow-title`. -/
theorem eventNow_progress_bar :
    (∀ (host : Host) (kvs : List (String × JVal)) (duration timeWarning timeDanger : Int)
        (d : Dom),
      0 < duration →
      kvs.lookup "duration" = some (JVal.num duration) →
      kvs.lookup "timeWarning" = some (JVal.num timeWarning) →
      kvs.lookup "timeDanger" = some (JVal.num timeDanger) →
      ∃ d', onmessage host (message "ontime-eventNow" (JVal.obj kvs)) d = Outcome.done d' ∧
        getProperty d'.rootStyle "--barStart" =
          some ((((Dbl.ofInt timeWarning).div (Dbl.ofInt duration)).mul
            (Dbl.ofInt 100)).toString ++ "%") ∧
        getProperty d'.rootStyle "--barEnd" =
          some ((((Dbl.ofInt timeDanger).div (Dbl.ofInt duration)).mul
            (Dbl.ofInt 100)).toString ++ "%") ∧
        d'.elements = (projectEntries host "eventNow-" kvs d).elements) ∧
    (∀ (host : Host) (d : Dom),
      ∃ d', onmessage host (message "ontime-eventNow" (JVal.obj
            [("duration", JVal.num 1000), ("timeWarning", JVal.num 300),
              ("timeDanger", JVal.num 100), ("title", JVal.str "Intro")])) d =
          Outcome.done d' ∧
        getProperty d'.rootStyle "--barStart" = some "30%" ∧
        getProperty d'.rootStyle "--barEnd" = some "10%" ∧
        ∀ el, getElementById d "eventNow-title" = some el →
          ∃ el', getElementById d' "eventNow-title" = some el' ∧ el'.innerText = "Intro") := by
  have general : ∀ (host : Host) (kvs : List (String × JVal))
      (duration timeWarning timeDanger : Int) (d : Dom),
      kvs.lookup "duration" = some (JVal.num duration) →
      kvs.lookup "timeWarning" = some (JVal.num timeWarning) →
      kvs.lookup "timeDanger" = some (JVal.num timeDanger) →
      onmessage host (message "ontime-eventNow" (JVal.obj kvs)) d =
          Outcome.done
            (progressBar host (JVal.obj kvs) (projectEntries host "eventNow-" kvs d)) ∧
        getProperty (progressBar host (JVal.obj kvs)
            (projectEntries host "eventNow-" kvs d)).rootStyle "--barStart" =
          some ((((Dbl.ofInt timeWarning).div (Dbl.ofInt duration)).mul
            (Dbl.ofInt 100)).toString ++ "%") ∧
        getProperty (progressBar host (JVal.obj kvs)
            (projectEntries host "eventNow-" kvs d)).rootStyle "--barEnd" =
          some ((((Dbl.ofInt timeDanger).div (Dbl.ofInt duration)).mul
            (Dbl.ofInt 100)).toString ++ "%") := by
    intro host kvs duration timeWarning timeDanger d hd hw hg
    have hp := progressBar_properties host (JVal.obj kvs) (projectEntries host "eventNow-" kvs d)
    rw [field_obj kvs _ _ hd, field_obj kvs _ _ hw, field_obj kvs _ _ hg, percent_num,
      percent_num] at hp
    exact ⟨by rw [onmessage_eventNow, caseEventNow_obj], hp.1, hp.2.1⟩
  constructor
  · intro host kvs duration timeWarning timeDanger d _ hd hw hg
    obtain ⟨h1, h2, h3⟩ := general host kvs duration timeWarning timeDanger d hd hw hg
    exact ⟨_, h1, h2, h3, (progressBar_properties host _ _).2.2⟩
  · intro host d
    obtain ⟨h1, h2, h3⟩ := general host
      [("duration", JVal.num 1000), ("timeWarning", JVal.num 300),
        ("timeDanger", JVal.num 100), ("title", JVal.str "Intro")] 1000 300 100 d rfl rfl rfl
    rw [percent_examples.1] at h2
    rw [percent_examples.2.1] at h3
    refine ⟨_, h1, h2, h3, ?_⟩
    intro el hel
    have hne : ∀ k : String, k ≠ "title" → "eventNow-title" ≠ "eventNow-" ++ k := by
      intro k hk h
      have h5 := congrArg String.data h
      rw [String.data_append] at h5
      have h6 : ['t', 'i', 't', 'l', 'e'] = k.data := by
        have h7 : ("eventNow-".data ++ ['t', 'i', 't', 'l', 'e']) = "eventNow-".data ++ k.data :=
          h5
        exact List.append_cancel_left h7
      exact hk (String.ext h6.symm)
    rw [getElementById_congr _ _ (progressBar_properties host _ _).2.2]
    rw [projectEntries_cons, projectEntries_cons, projectEntries_cons,
      projectEntries_cons, projectEntries_nil]
    simp only
    rw [getElementById_updateDOM _ _ _ _ _ (by decide), if_pos (by decide),
      getElementById_updateDOM _ _ _ _ _ (by decide), if_neg (hne _ (by decide)),
      getElementById_updateDOM _ _ _ _ _ (by decide), if_neg (hne _ (by decide)),
      getElementById_updateDOM _ _ _ _ _ (by decide), if_neg (hne _ (by decide)), hel]
    refine ⟨_, rfl, ?_⟩
    rw [writeElement_other _ _ (by simp) (by simp)]
    rw [if_neg (by decide), if_neg (by decide)]
    rfl

/-- C4, witness: the sample page receives the event of the specification. -/
theorem eventNow_progress_bar_witness :
    ∃ d', onmessage sampleHost (message "ontime-eventNow" (JVal.obj
          [("duration", JVal.num 1000), ("timeWarning", JVal.num 300),
            ("timeDanger", JVal.num 100), ("title", JVal.str "Intro")])) samplePage =
        Outcome.done d' ∧
      getProperty d'.rootStyle "--barStart" =
        some ((((Dbl.ofInt 300).div (Dbl.ofInt 1000)).mul (Dbl.ofInt 100)).toString ++ "%") ∧
      getProperty d'.rootStyle "--barEnd" =
        some ((((Dbl.ofInt 100).div (Dbl.ofInt 1000)).mul (Dbl.ofInt 100)).toString ++ "%") ∧
      d'.elements = (projectEntries sampleHost "eventNow-"
        [("duration", JVal.num 1000), ("timeWarning", JVal.num 300),
          ("timeDanger", JVal.num 100), ("title", JVal.str "Intro")] samplePage).elements :=
  eventNow_progress_bar.1 sampleHost _ 1000 300 100 samplePage (by decide) rfl rfl rfl

/-! ### The stopped timer -/

theorem forcePlaceholders_cons (k : String) (ks : List String) (d : Dom) :
    forcePlaceholders (k :: ks) d =
      forcePlaceholders ks
        (match getElementById d k with
        | some _ => d.setText k "--:--:--"
        | none => d) := rfl

theorem getElementById_placeholder_step (d : Dom) (k g : String) :
    getElementById
        (match getElementById d k with
        | some _ => d.setText k "--:--:--"
        | none => d) g =
      if g = k then (getElementById d g).map (fun el => { el with innerText := "--:--:--" })
      else getElementById d g := by
  cases hk : getElementById d k with
  | none =>
    simp only
    split
    · rename_i hg
      rw [hg, hk]; rfl
    · rfl
  | some el =>
    simp only
    exact getElementById_modify d k g _ (fun _ => rfl)

/-- After the placeholder loop, each listed element that exists shows the
placeholder and every other element is as before. -/
theorem getElementById_forcePlaceholders (keys : List String) : ∀ (d : Dom) (g : String),
    getElementById (forcePlaceholders keys d) g =
      if g ∈ keys then (getElementById d g).map (fun el => { el with innerText := "--:--:--" })
      else getElementById d g := by
  induction keys with
  | nil => intro d g; simp [forcePlaceholders]
  | cons k ks ih =>
    intro d g
    rw [forcePlaceholders_cons, ih, getElementById_placeholder_step]
    by_cases hgk : g = k
    · subst hgk
      simp only [List.mem_cons, true_or, if_true]
      split
      · cases getElementById d g <;> rfl
      · rfl
    · simp only [List.mem_cons, hgk, false_or, if_false]

theorem entries_of_getProp (payload : JVal) (k : String) (v : JVal)
    (h : getProp payload k = some v) : ∃ es, entries payload = some es := by
  cases payload with
  | undefined => simp [getProp] at h
  | null => simp [getProp] at h
  | bool b => exact ⟨_, rfl⟩
  | num n => exact ⟨_, rfl⟩
  | str s => exact ⟨_, rfl⟩
  | arr xs => exact ⟨_, rfl⟩
  | obj kvs => exact ⟨_, rfl⟩

/-- The stopped branch of the timer case: taken whenever `payload.current` is falsy. -/
theorem caseTimer_stopped (host : Host) (payload current : JVal) (d : Dom)
    (hc : getProp payload "current" = some current) (hf : toBoolean current = false) :
    ∃ d', onmessage host (message "ontime-timer" payload) d = Outcome.done d' ∧
      getProperty d'.rootStyle "--barStart" = some "0%" ∧
      getProperty d'.rootStyle "--barEnd" = some "0%" ∧
      getProperty d'.rootStyle "--barProgress" = some "100%" ∧
      ∀ k ∈ stoppedTimerKeys, ∀ el, getElementById d k = some el →
        ∃ el', getElementById d' k = some el' ∧ el'.innerText = "--:--:--" := by
  obtain ⟨es, hes⟩ := entries_of_getProp payload "current" current hc
  refine ⟨(((forcePlaceholders stoppedTimerKeys
      (projectEntries host "timer-" es d)).setRootProperty "--barStart" "0%").setRootProperty
      "--barEnd" "0%").setRootProperty "--barProgress" "100%", ?_, ?_, ?_, ?_, ?_⟩
  · rw [onmessage_timer]
    unfold caseTimer
    simp only [hc, hf, projectObject, hes, Outcome.andThen, Bool.not_false, if_true]
  · unfold Dom.setRootProperty
    simp only
    rw [getProperty_setProperty_other _ _ _ _ (by decide),
      getProperty_setProperty_other _ _ _ _ (by decide),
      getProperty_setProperty_self _ _ _ (by decide)]
  · unfold Dom.setRootProperty
    simp only
    rw [getProperty_setProperty_other _ _ _ _ (by decide),
      getProperty_setProperty_self _ _ _ (by decide)]
  · unfold Dom.setRootProperty
    simp only
    rw [getProperty_setProperty_self _ _ _ (by decide)]
  · intro k hk el hel
    rw [getElementById_setRootProperty, getElementById_setRootProperty,
      getElementById_setRootProperty, getElementById_forcePlaceholders, if_pos hk]
    have hs := isSome_getElementById_projectEntries host "timer-" es k d
    rw [hel] at hs
    cases hp : getElementById (projectEntries host "timer-" es d) k with
    | none => rw [hp] at hs; simp at hs
    | some el1 => exact ⟨_, rfl, rfl⟩

/-- C5.  For every `ontime-timer` message whose `payload.current` is `null` or
`undefined`, after the handler `--barStart` and `--barEnd` are `0%`, `--barProgress`
is `100%`, and every existing element among `timer-addedTime`, `timer-current`,
`timer-duration`, `timer-elapsed`, `timer-expectedFinish`, `timer-finishedAt` and
`timer-startedAt` shows `--:--:--`, also where the payload carried a value for it
(as `timer-elapsed` for `{current: null, elapsed: 0}`): the placeholder overrides the
projected value. -/
theorem stopped_timer_shows_placeholder (host : Host) (payload : JVal) (d : Dom)
    (h : getProp payload "current" = some JVal.null ∨
      getProp payload "current" = some JVal.undefined) :
    ∃ d', onmessage host (message "ontime-timer" payload) d = Outcome.done d' ∧
      getProperty d'.rootStyle "--barStart" = some "0%" ∧
      getProperty d'.rootStyle "--barEnd" = some "0%" ∧
      getProperty d'.rootStyle "--barProgress" = some "100%" ∧
      ∀ k ∈ ["timer-addedTime", "timer-current", "timer-duration", "timer-elapsed",
          "timer-expectedFinish", "timer-finishedAt", "timer-startedAt"],
        ∀ el, getElementById d k = some el →
          ∃ el', getElementById d' k = some el' ∧ el'.innerText = "--:--:--" := by
  rcases h with h | h
  · exact caseTimer_stopped host payload _ d h rfl
  · exact caseTimer_stopped host payload _ d h rfl

/-- C5, witness: the sample page receives `{current: null, elapsed: 0}`. -/
theorem stopped_timer_shows_placeholder_witness :
    ∃ d', onmessage sampleHost (message "ontime-timer"
          (JVal.obj [("current", JVal.null), ("elapsed", JVal.num 0)])) samplePage =
        Outcome.done d' ∧
      getProperty d'.rootStyle "--barStart" = some "0%" ∧
      getProperty d'.rootStyle "--barEnd" = some "0%" ∧
      getProperty d'.rootStyle "--barProgress" = some "100%" ∧
      ∀ k ∈ ["timer-addedTime", "timer-current", "timer-duration", "timer-elapsed",
          "timer-expectedFinish", "timer-finishedAt", "timer-startedAt"],
        ∀ el, getElementById samplePage k = some el →
          ∃ el', getElementById d' k = some el' ∧ el'.innerText = "--:--:--" :=
  stopped_timer_shows_placeholder sampleHost
    (JVal.obj [("current", JVal.null), ("elapsed", JVal.num 0)]) samplePage (Or.inl rfl)

/-- C6, the failing input.  A running timer whose `current` is the number 0 is
treated as stopped: for `{current: 0, elapsed: 5000, duration: 10000, playback: "play"}`
the handler zeroes `--barStart` and `--barEnd`, sets `--barProgress` to `100%` rather
than `50%`, and forces `timer-current` to the placeholder; with `current: 1` and the
same other fields it takes the running path and sets `--barProgress` to `50%`. -/
theorem zero_current_treated_as_stopped (host : Host) (d : Dom) :
    (∃ d', onmessage host (message "ontime-timer" (JVal.obj
          [("current", JVal.num 0), ("elapsed", JVal.num 5000),
            ("duration", JVal.num 10000), ("playback", JVal.str "play")])) d =
        Outcome.done d' ∧
      getProperty d'.rootStyle "--barStart" = some "0%" ∧
      getProperty d'.rootStyle "--barEnd" = some "0%" ∧
      getProperty d'.rootStyle "--barProgress" = some "100%" ∧
      ∀ el, getElementById d "timer-current" = some el →
        ∃ el', getElementById d' "timer-current" = some el' ∧
          el'.innerText = "--:--:--") ∧
    (∃ d', onmessage host (message "ontime-timer" (JVal.obj
          [("current", JVal.num 1), ("elapsed", JVal.num 5000),
            ("duration", JVal.num 10000), ("playback", JVal.str "play")])) d =
        Outcome.done d' ∧
      getProperty d'.rootStyle "--barProgress" = some "50%" ∧
      getProperty d'.rootStyle "--barStart" = getProperty d.rootStyle "--barStart" ∧
      getProperty d'.rootStyle "--barEnd" = getProperty d.rootStyle "--barEnd") := by
  constructor
  · obtain ⟨d', h1, h2, h3, h4, h5⟩ := caseTimer_stopped host (JVal.obj
      [("current", JVal.num 0), ("elapsed", JVal.num 5000),
        ("duration", JVal.num 10000), ("playback", JVal.str "play")]) (JVal.num 0) d rfl rfl
    exact ⟨d', h1, h2, h3, h4, h5 "timer-current" (by decide)⟩
  · refine ⟨(projectEntries host "timer-"
        [("current", JVal.num 1), ("elapsed", JVal.num 5000),
          ("duration", JVal.num 10000), ("playback", JVal.str "play")] d).setRootProperty
        "--barProgress" "50%", ?_, ?_, ?_, ?_⟩
    · rw [onmessage_timer, ← percent_examples.2.2]
      rfl
    · unfold Dom.setRootProperty
      simp only
      rw [getProperty_setProperty_self _ _ _ (by decide)]
    · unfold Dom.setRootProperty
      simp only
      rw [getProperty_setProperty_other _ _ _ _ (by decide), rootStyle_projectEntries]
    · unfold Dom.setRootProperty
      simp only
      rw [getProperty_setProperty_other _ _ _ _ (by decide), rootStyle_projectEntries]

/-! ### Connection manager -/

theorem getElem?_append_singleton {α : Type} (xs : List α) (x y : α) (i : Nat)
    (h : (xs ++ [x])[i]? = some y) : (i < xs.length ∧ xs[i]? = some y) ∨ (i = xs.length ∧ y = x) := by
  by_cases hi : i < xs.length
  · left
    rw [List.getElem?_append_left hi] at h
    exact ⟨hi, h⟩
  · right
    have hge : xs.length ≤ i := by omega
    rw [List.getElem?_append_right hge] at h
    by_cases h0 : i - xs.length = 0
    · rw [h0] at h
      simp at h
      exact ⟨by omega, h.symm⟩
    · obtain ⟨j, hj⟩ := Nat.exists_eq_succ_of_ne_zero h0
      rw [hj] at h
      simp at h

theorem set_append_singleton {α : Type} (xs : List α) (x y : α) :
    (xs ++ [x]).set xs.length y = xs ++ [y] := by
  induction xs with
  | nil => rfl
  | cons a as ih => simp [List.set, ih]

/-- In a state of the invariant, a socket that is not closed is the newest one, and
no timeout is pending. -/
theorem inv_open_socket (c : Conn) (older : List ReadyState) (newest : ReadyState)
    (hs : c.sockets = older ++ [newest]) (hold : ∀ s ∈ older, s = ReadyState.CLOSED)
    (i : Nat) (s : ReadyState) (hi : c.sockets[i]? = some s) (hne : s ≠ ReadyState.CLOSED) :
    i = older.length ∧ s = newest := by
  rw [hs] at hi
  rcases getElem?_append_singleton older newest s i hi with ⟨_, h⟩ | h
  · exact absurd (hold s (List.getElem?_mem h)) hne
  · exact h

theorem inv_initial : Conn.initial.Inv :=
  ⟨[], ReadyState.CONNECTING, rfl, by simp, Or.inl ⟨by decide, rfl⟩⟩

/-- Each turn of the event loop keeps the invariant. -/
theorem inv_step (c c' : Conn) (e : Event) (hinv : c.Inv) (hstep : step c e = some c') :
    c'.Inv := by
  obtain ⟨older, newest, hs, hold, hcase⟩ := hinv
  cases e with
  | opened i =>
    simp only [step, List.get?_eq_getElem?] at hstep
    split at hstep
    · rename_i hget
      obtain ⟨hi, hn⟩ := inv_open_socket c older newest hs hold i _ hget (by decide)
      simp only [Option.some.injEq] at hstep
      subst hstep
      rcases hcase with ⟨_, ht⟩ | ⟨hcl, _⟩
      · refine ⟨older, ReadyState.OPEN, ?_, hold, Or.inl ⟨by decide, ?_⟩⟩
        · simp only [onopen]
          rw [hs, hi, set_append_singleton]
        · simp only [onopen, ht]
          cases c.reconnectTimeout <;> rfl
      · rw [← hn] at hcl
        exact absurd hcl (by decide)
    · simp at hstep
  | closed i =>
    simp only [step, List.get?_eq_getElem?] at hstep
    split at hstep
    · rename_i s hget
      split at hstep
      · simp at hstep
      · rename_i hne
        obtain ⟨hi, hn⟩ := inv_open_socket c older newest hs hold i s hget hne
        simp only [Option.some.injEq] at hstep
        subst hstep
        rcases hcase with ⟨_, ht⟩ | ⟨hcl, _⟩
        · refine ⟨older, ReadyState.CLOSED, ?_, hold, Or.inr ⟨rfl, c.nextHandle, ?_, rfl⟩⟩
          · simp only [onclose]
            rw [hs, hi, set_append_singleton]
          · simp only [onclose, ht, hi]
            rfl
        · rw [← hn] at hcl
          exact absurd hcl hne
    · simp at hstep
  | errored i =>
    simp only [step] at hstep
    split at hstep
    · simp only [Option.some.injEq] at hstep
      subst hstep
      exact ⟨older, newest, hs, hold, hcase⟩
    · simp at hstep
  | timerFired h =>
    simp only [step] at hstep
    split at hstep
    · rename_i t hfind
      simp only [Option.some.injEq] at hstep
      subst hstep
      rcases hcase with ⟨_, ht⟩ | ⟨hcl, h0, ht, _⟩
      · rw [ht] at hfind
        simp at hfind
      · rw [ht] at hfind
        simp only [List.find?_cons, List.find?_nil] at hfind
        split at hfind
        · rename_i hb
          simp only [Option.some.injEq] at hfind
          subst hfind
          have hh : h0 = h := by simpa using hb
          subst hh
          have hget : c.sockets.get? older.length = some ReadyState.CLOSED := by
            rw [hs, hcl]
            simp
          refine ⟨older ++ [ReadyState.CLOSED], ReadyState.CONNECTING, ?_, ?_,
            Or.inl ⟨by decide, ?_⟩⟩
          · simp only [reconnectCallback, hget, if_true, connectSocket]
            rw [hs, hcl]
          · intro s hmem
            rw [List.mem_append] at hmem
            rcases hmem with hmem | hmem
            · exact hold s hmem
            · simpa using hmem
          · simp only [reconnectCallback, hget, if_true, connectSocket, ht]
            simp
        · simp at hfind
    · simp at hstep

theorem inv_run (es : List Event) : ∀ (c c' : Conn), c.Inv → run c es = some c' → c'.Inv := by
  induction es with
  | nil =>
    intro c c' hinv hrun
    simp only [run, Option.some.injEq] at hrun
    subst hrun
    exact hinv
  | cons e es ih =>
    intro c c' hinv hrun
    simp only [run] at hrun
    cases hstep : step c e with
    | none => rw [hstep] at hrun; simp at hrun
    | some c1 =>
      rw [hstep] at hrun
      exact ih c1 c' (inv_step c c1 e hinv hstep) hrun

theorem inv_of_reachable (c : Conn) (h : Reachable c) : c.Inv := by
  obtain ⟨es, hes⟩ := h
  exact inv_run es Conn.initial c inv_initial hes

theorem waiting_of_closed (c c' : Conn) (i : Nat) (hinv : c.Inv)
    (hstep : step c (Event.closed i) = some c') :
    c'.Waiting ∧ c'.reconnectAttempts = c.reconnectAttempts := by
  obtain ⟨older, newest, hs, hold, hcase⟩ := hinv
  simp only [step, List.get?_eq_getElem?] at hstep
  split at hstep
  · rename_i s hget
    split at hstep
    · simp at hstep
    · rename_i hne
      obtain ⟨hi, hn⟩ := inv_open_socket c older newest hs hold i s hget hne
      simp only [Option.some.injEq] at hstep
      subst hstep
      rcases hcase with ⟨_, ht⟩ | ⟨hcl, _⟩
      · refine ⟨⟨older, c.nextHandle, ?_, hold, ?_, rfl⟩, rfl⟩
        · simp only [onclose]
          rw [hs, hi, set_append_singleton]
        · simp only [onclose, ht, hi]
          rfl
      · rw [← hn] at hcl
        exact absurd hcl hne
  · simp at hstep

theorem step_closed_of_getElem (c : Conn) (i : Nat) (s : ReadyState)
    (h : c.sockets[i]? = some s) (hne : s ≠ ReadyState.CLOSED) :
    step c (Event.closed i) =
      some (onclose i { c with sockets := c.sockets.set i ReadyState.CLOSED }) := by
  simp only [step, List.get?_eq_getElem?, h]
  rw [if_neg hne]

/-- A failed reconnect from a waiting state: the timeout fires, the counter goes up
by one, the new socket closes, and the state waits again. -/
theorem failedReconnect_waiting (c : Conn) (hw : c.Waiting) :
    ∃ c', failedReconnect c = some c' ∧ c'.Waiting ∧
      c'.reconnectAttempts = c.reconnectAttempts + 1 := by
  obtain ⟨older, h, hs, hold, ht, hr⟩ := hw
  have hget : c.sockets.get? older.length = some ReadyState.CLOSED := by
    rw [hs]; simp
  have hfire : step c (Event.timerFired h) =
      some { c with
        timers := []
        reconnectAttempts := c.reconnectAttempts + 1
        sockets := older ++ [ReadyState.CLOSED] ++ [ReadyState.CONNECTING] } := by
    simp only [step, ht, List.find?_cons, beq_self_eq_true, reconnectCallback, hget, if_true,
      connectSocket, hs]
    simp
  have hlen : (older ++ [ReadyState.CLOSED] ++ [ReadyState.CONNECTING]).length - 1 =
      (older ++ [ReadyState.CLOSED]).length := by simp
  refine ⟨{ c with
      timers := [(c.nextHandle, (older ++ [ReadyState.CLOSED]).length)]
      reconnectAttempts := c.reconnectAttempts + 1
      sockets := older ++ [ReadyState.CLOSED] ++ [ReadyState.CLOSED]
      reconnectTimeout := some c.nextHandle
      nextHandle := c.nextHandle + 1 }, ?_, ?_, rfl⟩
  · unfold failedReconnect
    rw [hr]
    simp only
    rw [hfire]
    show step _ (Event.closed
      ((older ++ [ReadyState.CLOSED] ++ [ReadyState.CONNECTING]).length - 1)) = _
    rw [hlen]
    have hg2 : (older ++ [ReadyState.CLOSED] ++ [ReadyState.CONNECTING])[
        (older ++ [ReadyState.CLOSED]).length]? = some ReadyState.CONNECTING := by
      rw [List.getElem?_append_right (Nat.le_refl _)]
      simp
    rw [step_closed_of_getElem _ _ ReadyState.CONNECTING hg2 (by decide)]
    simp only [onclose, set_append_singleton, ht]
    rfl
  · refine ⟨older ++ [ReadyState.CLOSED], c.nextHandle, rfl, ?_, rfl, rfl⟩
    intro s hmem
    rw [List.mem_append] at hmem
    rcases hmem with hmem | hmem
    · exact hold s hmem
    · simpa using hmem

theorem failedReconnects_waiting (n : Nat) : ∀ c : Conn, c.Waiting →
    ∃ c', failedReconnects n c = some c' ∧ c'.reconnectAttempts = c.reconnectAttempts + n := by
  induction n with
  | zero => intro c _; exact ⟨c, rfl, rfl⟩
  | succ n ih =>
    intro c hw
    obtain ⟨c1, h1, hw1, ha1⟩ := failedReconnect_waiting c hw
    obtain ⟨c2, h2, ha2⟩ := ih c1 hw1
    refine ⟨c2, ?_, ?_⟩
    · show (failedReconnect c).bind (failedReconnects n) = some c2
      rw [h1]
      exact h2
    · rw [ha2, ha1]; omega

theorem step_attempts_monotone (c c' : Conn) (e : Event) (he : e.isOpened = false)
    (hstep : step c e = some c') : c.reconnectAttempts ≤ c'.reconnectAttempts := by
  cases e with
  | opened i => simp [Event.isOpened] at he
  | closed i =>
    simp only [step] at hstep
    split at hstep
    · split at hstep
      · simp at hstep
      · simp only [Option.some.injEq] at hstep
        subst hstep
        exact Nat.le_refl _
    · simp at hstep
  | errored i =>
    simp only [step] at hstep
    split at hstep
    · simp only [Option.some.injEq] at hstep
      subst hstep
      exact Nat.le_refl _
    · simp at hstep
  | timerFired h =>
    simp only [step] at hstep
    split at hstep
    · simp only [Option.some.injEq] at hstep
      subst hstep
      unfold reconnectCallback
      split
      · simp [connectSocket]
      · exact Nat.le_refl _
    · simp at hstep

theorem run_attempts_monotone (es : List Event) : ∀ (c c' : Conn),
    (∀ e ∈ es, e.isOpened = false) → run c es = some c' →
    c.reconnectAttempts ≤ c'.reconnectAttempts := by
  induction es with
  | nil =>
    intro c c' _ hrun
    simp only [run, Option.some.injEq] at hrun
    subst hrun
    exact Nat.le_refl _
  | cons e es ih =>
    intro c c' hall hrun
    simp only [run] at hrun
    cases hstep : step c e with
    | none => rw [hstep] at hrun; simp at hrun
    | some c1 =>
      rw [hstep] at hrun
      have h1 := step_attempts_monotone c c1 e (hall e (List.mem_cons_self _ _)) hstep
      have h2 := ih c1 c' (fun e' he' => hall e' (List.mem_cons_of_mem _ he')) hrun
      exact Nat.le_trans h1 h2

/-- C8.  In the connection state machine over the events open, close and
timeout-fire: every open sets the attempt counter to 0 and cancels the timeout the
variable refers to, after which none is pending; every close schedules exactly one
timeout and stores its handle; every timeout that fires for a closed socket — in a
reachable state, every timeout that fires — adds exactly 1 to the counter and opens
exactly one new socket; between two opens the counter never decreases; and after an
open, the loss of that connection and `n` failed reconnects in a row the counter
equals `n`. -/
theorem reconnect_counter :
    (∀ (c c' : Conn) (i : Nat), step c (Event.opened i) = some c' →
      c'.reconnectAttempts = 0 ∧
      c'.timers = clearTimeout c.reconnectTimeout c.timers ∧
      (∀ h, c.reconnectTimeout = some h → ∀ t ∈ c'.timers, t.1 ≠ h) ∧
      (Reachable c → c'.timers = [])) ∧
    (∀ (c c' : Conn) (i : Nat), step c (Event.closed i) = some c' →
      c'.timers = c.timers ++ [(c.nextHandle, i)] ∧
      c'.reconnectTimeout = some c.nextHandle ∧
      c'.reconnectAttempts = c.reconnectAttempts) ∧
    (∀ (c c' : Conn) (h : Nat) (t : Nat × Nat),
      c.timers.find? (fun u => u.1 == h) = some t →
      c.sockets.get? t.2 = some ReadyState.CLOSED →
      step c (Event.timerFired h) = some c' →
      c'.reconnectAttempts = c.reconnectAttempts + 1 ∧
      c'.sockets = c.sockets ++ [ReadyState.CONNECTING]) ∧
    (∀ (c c' : Conn) (h : Nat), Reachable c → step c (Event.timerFired h) = some c' →
      c'.reconnectAttempts = c.reconnectAttempts + 1 ∧
      c'.sockets = c.sockets ++ [ReadyState.CONNECTING]) ∧
    (∀ (c c' : Conn) (es : List Event), (∀ e ∈ es, e.isOpened = false) →
      run c es = some c' → c.reconnectAttempts ≤ c'.reconnectAttempts) ∧
    (∀ (c c1 c2 : Conn) (i n : Nat), Reachable c →
      step c (Event.opened i) = some c1 → step c1 (Event.closed i) = some c2 →
      ∃ c3, failedReconnects n c2 = some c3 ∧ c3.reconnectAttempts = n) := by
  have fire : ∀ (c c' : Conn) (h : Nat) (t : Nat × Nat),
      c.timers.find? (fun u => u.1 == h) = some t →
      c.sockets.get? t.2 = some ReadyState.CLOSED →
      step c (Event.timerFired h) = some c' →
      c'.reconnectAttempts = c.reconnectAttempts + 1 ∧
      c'.sockets = c.sockets ++ [ReadyState.CONNECTING] := by
    intro c c' h t hfind hclosed hstep
    simp only [step, hfind, reconnectCallback, hclosed, if_true, connectSocket,
      Option.some.injEq] at hstep
    subst hstep
    exact ⟨rfl, rfl⟩
  have opened : ∀ (c c' : Conn) (i : Nat), step c (Event.opened i) = some c' →
      c' = onopen { c with sockets := c.sockets.set i ReadyState.OPEN } := by
    intro c c' i hstep
    simp only [step] at hstep
    split at hstep
    · simp only [Option.some.injEq] at hstep
      exact hstep.symm
    · simp at hstep
  refine ⟨?_, ?_, fire, ?_, ?_, ?_⟩
  · intro c c' i hstep
    have hc' := opened c c' i hstep
    refine ⟨by rw [hc']; rfl, by rw [hc']; rfl, ?_, ?_⟩
    · intro h hr t ht
      rw [hc'] at ht
      simp only [onopen, hr, clearTimeout, List.mem_filter, bne_iff_ne] at ht
      exact ht.2
    · intro hreach
      obtain ⟨older, newest, hs, hold, hcase⟩ :=
        inv_step c c' _ (inv_of_reachable c hreach) hstep
      rcases hcase with ⟨_, ht⟩ | ⟨hcl, _⟩
      · exact ht
      · exfalso
        have hso : c'.sockets = c.sockets.set i ReadyState.OPEN := by rw [hc']; rfl
        have hopen : c'.sockets[i]? = some ReadyState.OPEN := by
          simp only [step, List.get?_eq_getElem?] at hstep
          split at hstep
          · rename_i hget
            rw [hso]
            have hi : i < c.sockets.length := by
              by_contra hcon
              rw [List.getElem?_eq_none (by omega)] at hget
              simp at hget
            simp [List.getElem?_set, hi]
          · simp at hstep
        obtain ⟨_, hn⟩ := inv_open_socket c' older newest hs hold i _ hopen (by decide)
        rw [← hn] at hcl
        exact absurd hcl (by decide)
  · intro c c' i hstep
    simp only [step] at hstep
    split at hstep
    · split at hstep
      · simp at hstep
      · simp only [Option.some.injEq] at hstep
        subst hstep
        exact ⟨rfl, rfl, rfl⟩
    · simp at hstep
  · intro c c' h hreach hstep
    obtain ⟨older, newest, hs, hold, hcase⟩ := inv_of_reachable c hreach
    cases hfind : c.timers.find? (fun u => u.1 == h) with
    | none => simp [step, hfind] at hstep
    | some t =>
      refine fire c c' h t hfind ?_ hstep
      rcases hcase with ⟨_, ht⟩ | ⟨hcl, h0, ht, _⟩
      · rw [ht] at hfind
        simp at hfind
      · rw [ht] at hfind
        simp only [List.find?_cons, List.find?_nil] at hfind
        split at hfind
        · simp only [Option.some.injEq] at hfind
          subst hfind
          rw [hs, hcl]
          simp
        · simp at hfind
  · intro c c' es hall hrun
    exact run_attempts_monotone es c c' hall hrun
  · intro c c1 c2 i n hreach h1 h2
    have hinv1 := inv_step c c1 _ (inv_of_reachable c hreach) h1
    obtain ⟨hw, ha⟩ := waiting_of_closed c1 c2 i hinv1 h2
    obtain ⟨c3, h3, ha3⟩ := failedReconnects_waiting n c2 hw
    refine ⟨c3, h3, ?_⟩
    have h0 : c1.reconnectAttempts = 0 := by rw [opened c c1 i h1]; rfl
    rw [ha3, ha, h0]
    omega

/-- C8, witness: after the first connection opens and is lost, three failed
reconnects in a row leave the counter at 3. -/
theorem reconnect_counter_witness :
    ∃ c3, failedReconnects 3
        { reconnectTimeout := some 1, reconnectAttempts := 0,
          sockets := [ReadyState.CLOSED], timers := [(1, 0)], nextHandle := 2 } = some c3 ∧
      c3.reconnectAttempts = 3 :=
  reconnect_counter.2.2.2.2.2 Conn.initial
    { reconnectTimeout := none, reconnectAttempts := 0, sockets := [ReadyState.OPEN],
      timers := [], nextHandle := 1 }
    { reconnectTimeout := some 1, reconnectAttempts := 0, sockets := [ReadyState.CLOSED],
      timers := [(1, 0)], nextHandle := 2 }
    0 3 ⟨[], rfl⟩ rfl rfl

end OntimeViewer
